import Mathlib

/-
Verification development for the conda-forge-feedstock-ops virtual mount and
operation-transport protocol.

The definitions below are a shallow embedding of the Python source:

* virtual_mounts_host.py : VirtualMount (post-init validation), mounts_to_tar,
  delete_non_ignore_paths, validate_symlinks_within_dir, untar_mounts_from_stream.
* container_utils.py : the second VirtualMount class, run_container_operation
  (mount assembly and return-info parsing), should_use_container.
* main module : run_bot_task (the container-side task runner).

Filesystems are modelled as finite association lists from component-list paths
to nodes (regular file with content and executable bit, directory, or symbolic
link).  The GNU tar exclusion patterns "--exclude=**/P/**" and "--exclude=**/P"
were checked against GNU tar empirically: a member is excluded exactly when an
ignored component occurs at component index 1 or later of its name (a member
named "P" or "P/x" at top level is not excluded, since both patterns require a
literal slash before P).
-/

namespace CFOps

/-- A path is a list of name components, relative to some root. -/
abbrev RPath := List String

/-- A filesystem node: regular file (byte content plus the user-execute
permission bit), directory, or symbolic link.  A symlink target is stored as
an absolute flag together with its components, which may include ".." and
".". -/
inductive FNode where
  | file (content : List Nat) (exec : Bool)
  | dir
  | symlink (absTarget : Bool) (target : List String)
  deriving DecidableEq, Repr

/-- A filesystem (or an archive member list): a finite association list from
paths to nodes.  The extraction functions below produce lists with pairwise
distinct keys; lookups take the first match. -/
abbrev FS := List (RPath × FNode)

/-- Lookup of a path in a filesystem. -/
def fsFind (fs : FS) (p : RPath) : Option FNode :=
  List.lookup p fs

/-- VirtualMount.IGNORE_PATHS from virtual_mounts_host.py: path components that
are excluded when untarring if they appear anywhere in a member path. -/
def IGNORE_PATHS : List String := [".git"]

/-- UNTAR_TIMEOUT exists in the source as a wall-clock bound on the tar
subprocess; the model represents only whether the bound was exceeded. -/
def UNTAR_TIMEOUT : Nat := 20

/-- A virtual mount as used by the inbound unpacker: the host path, the cached
relative container path, and the read-only flag. -/
structure VMount where
  hostPath : RPath
  relContainerPath : List String
  readOnly : Bool
  deriving DecidableEq, Repr

/-- The GNU tar exclusion test for the patterns built by
untar_mounts_from_stream from IGNORE_PATHS.  Empirically validated against GNU
tar: a member name is excluded iff an ignored component appears at index 1 or
later (both patterns demand a slash directly before the ignored component, so
a top-level ignored member is not excluded). -/
def tarExcluded (p : RPath) : Bool :=
  (p.drop 1).any (fun c => IGNORE_PATHS.contains c)

/-- GNU tar normalises away "." components and empty components (repeated or
trailing slashes) in member names. -/
def cleanMemberPath (p : RPath) : RPath :=
  p.filter (fun c => !(c == ".") && !(c == ""))

/-- Keep the first occurrence of every key not already claimed by seen. -/
def dedupSeen : List RPath → List (RPath × FNode) → List (RPath × FNode)
  | _, [] => []
  | seen, m :: rest =>
    if seen.contains m.1 then dedupSeen seen rest
    else m :: dedupSeen (m.1 :: seen) rest

/-- Keep the first occurrence of every key. -/
def dedupByKey (ms : List (RPath × FNode)) : List (RPath × FNode) :=
  dedupSeen [] ms

/-- Keep the last occurrence of every member path, mirroring that tar extracts
members in order and later members overwrite earlier ones.  Implemented by
keeping the first occurrence in the reversed list. -/
def dedupKeepLast (ms : List (RPath × FNode)) : List (RPath × FNode) :=
  (dedupByKey ms.reverse).reverse

/-- The proper nonempty prefixes of a path (all strict ancestors other than the
root). -/
def properAncestors (p : RPath) : List RPath :=
  ((List.range p.length).drop 1).map (fun k => p.take k)

/-- Tar creates missing parent directories while extracting a member; add a
directory entry for every ancestor of a member that has no entry of its own. -/
def addImplicitDirs (fs : FS) : FS :=
  let missing :=
    (fs.foldr (fun m acc => properAncestors m.1 ++ acc) []).filter
      (fun q => (List.lookup q fs).isNone)
  fs ++ dedupByKey (missing.map (fun q => (q, FNode.dir)))

/-- The scratch-directory extraction step of untar_mounts_from_stream: GNU tar
is run with --no-same-owner --no-same-permissions and the two exclusion
patterns per ignored component.  Tar refuses member names containing ".."
(and the run then exits nonzero, which plumbum surfaces as an exception before
any host path is touched); "." and empty components are normalised away. -/
def extractTar (members : List (RPath × FNode)) : Except String FS :=
  let cleaned := members.map (fun m => (cleanMemberPath m.1, m.2))
  if cleaned.any (fun m => m.1.isEmpty || m.1.contains "..") then
    .error "tar: member name is empty or contains a dot-dot component"
  else
    .ok (addImplicitDirs (dedupKeepLast (cleaned.filter (fun m => !tarExcluded m.1))))

/-- Number of symlink entries of a filesystem, used to bound symlink-chain
resolution. -/
def countSymlinks (fs : FS) : Nat :=
  fs.countP (fun m => match m.2 with
    | .symlink _ _ => true
    | _ => false)

/-- One-step-at-a-time path resolution below the scratch root, following the
semantics of Path.resolve (non-strict os.path.realpath): components are
processed left to right, ".." moves to the parent, a component naming a
symlink entry is expanded in place, and components with no entry are kept
as-is without error.  The state cur is the already-resolved path relative to
the scratch root.  Stepping above the scratch root, or reaching an absolute
symlink target, is reported as none: the scratch root is a freshly created
temporary directory with an unguessable name, so a resolution that leaves it
cannot name it again, and an archive-supplied absolute target does not point
into it.  The fuel bounds the number of symlink expansions; CPython resolves
unboundedly long acyclic chains and returns the link path itself unresolved on
a cycle, so exhausted fuel (none) is a conservative model of those corners. -/
def resolveGo (fs : FS) : Nat → List String → List String → Option (List String)
  | _, cur, [] => some cur
  | 0, _, _ :: _ => none
  | fuel + 1, cur, c :: rest =>
    if c = "." then resolveGo fs fuel cur rest
    else if c = ".." then
      match cur with
      | [] => none
      | _ :: _ => resolveGo fs fuel cur.dropLast rest
    else
      match List.lookup (cur ++ [c]) fs with
      | some (.symlink ab tgt) =>
        if ab then none else resolveGo fs fuel cur (tgt ++ rest)
      | _ => resolveGo fs fuel (cur ++ [c]) rest

/-- Total length of the symlink targets of a filesystem, used to budget
resolution fuel. -/
def totalTargetLen (fs : FS) : Nat :=
  fs.foldl (fun a m => a + match m.2 with
    | .symlink _ t => t.length
    | _ => 0) 0

/-- Resolution of the target of a symlink located at linkPath inside the
scratch directory, as performed by file_path.resolve() in
validate_symlinks_within_dir.  Returns the resolved path relative to the
scratch root when the resolution stays below it, and none when it escapes. -/
def resolveTarget (fs : FS) (linkPath : RPath) (ab : Bool) (tgt : List String) :
    Option (List String) :=
  if ab then none
  else resolveGo fs
    ((countSymlinks fs + 1) * (totalTargetLen fs + tgt.length + fs.length + 2))
    linkPath.dropLast tgt

/-- The keep condition of validate_symlinks_within_dir: the symlink survives
iff the resolved target is a strict descendant of the scratch root (the source
tests directory.resolve() being among the parents of the target, so a target
equal to the root itself is also removed). -/
def keepSymlink (fs : FS) (p : RPath) (ab : Bool) (tgt : List String) : Bool :=
  match resolveTarget fs p ab tgt with
  | some r => !r.isEmpty
  | none => false

/-- validate_symlinks_within_dir: walk the scratch directory and delete every
symlink whose resolved target does not lie strictly inside it.  The source
walks with rglob and unlinks during the walk; with chained symlinks the
deletions could influence later resolutions, which this model determinises by
resolving every link against the extracted tree. -/
def validateSymlinksWithinDir (fs : FS) : FS :=
  fs.filter (fun m => match m.2 with
    | .symlink ab tgt => keepSymlink fs m.1 ab tgt
    | _ => true)

/-- The paths removed by delete_non_ignore_paths: strict descendants of the
target whose first component below the target is not ignored (rmtree of a
non-ignored directory also removes everything nested inside it, including
deeper ignored paths, so survival is determined by the first component). -/
def deletedBelow (target p : RPath) : Bool :=
  target.isPrefixOf p && decide (p ≠ target) &&
    (match p.drop target.length with
      | [] => false
      | c :: _ => !IGNORE_PATHS.contains c)

/-- Delete_non_ignore_paths: rglob("*") walks strict descendants of the target
top-down; an entry whose relative parts do not meet IGNORE_PATHS is deleted
(rmtree for directories, so a non-ignored directory disappears with its whole
subtree, including any ignored paths nested inside it).  The surviving strict
descendants are exactly those whose first component below the target is
ignored; this was validated empirically against the rglob/rmtree loop. -/
def deleteNonIgnorePaths (host : FS) (target : RPath) : FS :=
  host.filter (fun m => !deletedBelow target m.1)

/-- Insert or replace a single entry. -/
def fsSet (fs : FS) (p : RPath) (n : FNode) : FS :=
  (p, n) :: fs.filter (fun m => !(m.1 == p))

/-- shutil.copy2 of the scratch file onto the mount host path.  When the
destination is an existing directory, copy2 places the file inside it under
the basename of the source; otherwise the destination itself is created or
overwritten.  Metadata is copied, so the executable bit of the source is
preserved. -/
def copy2Model (host : FS) (hostPath : RPath) (srcName : String) (n : FNode) : FS :=
  match List.lookup hostPath host with
  | some FNode.dir => fsSet host (hostPath ++ [srcName]) n
  | _ => fsSet host hostPath n

/-- shutil.copytree of the scratch subtree at rel onto the mount host path,
with symlinks=True and dirs_exist_ok=True: the destination directory is
created if needed, every entry strictly below rel is copied to the
corresponding path below the host path (symlinks copied as symlinks,
executable bits preserved), and entries already present at the destination
but absent from the source are left alone. -/
def copyTreeModel (scratch : FS) (rel : List String) (host : FS) (hostPath : RPath) :
    FS :=
  let sub := scratch.filter (fun m => rel.isPrefixOf m.1 && decide (m.1 ≠ rel))
  sub.foldl (fun h m => fsSet h (hostPath ++ m.1.drop rel.length) m.2)
    (fsSet host hostPath FNode.dir)

/-- The copy part of one mount-loop iteration, applied to the already-cleared
host state: if the scratch entry at the relative container path is a regular
file it is copied with copy2, else the subtree is copied with copytree.
copytree raises when the scratch source is missing, or when the destination
exists and is not a directory; in those cases the deletion step has already
mutated the host, which the returned state reflects. -/
def copyTreeStep (scratch : FS) (host1 : FS) (m : VMount) :
    Except String Unit × FS :=
  if (List.lookup m.relContainerPath scratch).isNone &&
      (scratch.filter (fun x =>
        m.relContainerPath.isPrefixOf x.1 &&
          decide (x.1 ≠ m.relContainerPath))).isEmpty then
    (.error "copytree: no such file or directory", host1)
  else
    match List.lookup m.hostPath host1 with
    | some (FNode.file _ _) =>
      (.error "copytree: destination exists and is not a directory", host1)
    | some (FNode.symlink _ _) =>
      (.error "copytree: destination exists and is not a directory", host1)
    | _ => (.ok (), copyTreeModel scratch m.relContainerPath host1 m.hostPath)

def applyMountCopy (scratch : FS) (host1 : FS) (m : VMount) :
    Except String Unit × FS :=
  match List.lookup m.relContainerPath scratch with
  | some (FNode.file c e) =>
    (.ok (), copy2Model host1 m.hostPath (m.relContainerPath.getLastD "")
      (FNode.file c e))
  | _ => copyTreeStep scratch host1 m

/-- One iteration of the mount loop of untar_mounts_from_stream.  Read-only
mounts are skipped outright; otherwise the host path is first cleared of
non-ignored entries and the scratch contents are copied over. -/
def applyMount (scratch : FS) (host : FS) (m : VMount) :
    Except String Unit × FS :=
  if m.readOnly then (.ok (), host)
  else applyMountCopy scratch (deleteNonIgnorePaths host m.hostPath) m

/-- The mount loop: mounts are processed in order; an exception aborts the
loop, leaving the host state reached so far. -/
def applyMounts (scratch : FS) : List VMount → FS → Except String Unit × FS
  | [], host => (.ok (), host)
  | m :: rest, host =>
    match applyMount scratch host m with
    | (.ok (), host1) => applyMounts scratch rest host1
    | (.error e, host1) => (.error e, host1)

/-- Failure modes of untar_mounts_from_stream: the tar subprocess exceeded
UNTAR_TIMEOUT (plumbum ProcessTimedOut), tar exited nonzero (plumbum
ProcessExecutionError), or a copy step raised. -/
inductive UntarErr where
  | timeout
  | tarFailed (msg : String)
  | copyFailed (msg : String)
  deriving DecidableEq, Repr

/-- Wrapping of the mount-loop outcome into the pipeline error type. -/
def untarWrap (A : Except String Unit × FS) : Except UntarErr Unit × FS :=
  match A with
  | (.ok (), h) => (.ok (), h)
  | (.error e, h) => (.error (.copyFailed e), h)

/-- untar_mounts_from_stream: extract the whole archive into a fresh scratch
directory under a timeout, delete symlinks escaping the scratch directory,
then for each writable mount clear the host path of non-ignored entries and
copy the scratch subtree over.  The timeout and a tar failure happen before
any host path is touched; the returned pair is the outcome together with the
final host state (also on error). -/
def untarMountsFromStream (timedOut : Bool) (members : List (RPath × FNode))
    (mounts : List VMount) (host : FS) : Except UntarErr Unit × FS :=
  if timedOut then (.error .timeout, host)
  else
    match extractTar members with
    | .error e => (.error (.tarFailed e), host)
    | .ok scratch0 =>
      untarWrap (applyMounts (validateSymlinksWithinDir scratch0) mounts host)

/-- mounts_to_tar for a single directory mount: tarfile.add(host_path,
arcname=rel) stores the directory itself under rel and every entry of the
tree under rel ++ entry path.  No exclusion is applied on the outbound side. -/
def packTree (rel : List String) (tree : FS) : List (RPath × FNode) :=
  (rel, FNode.dir) :: tree.map (fun m => (rel ++ m.1, m.2))

/-- A pure POSIX path as used by pathlib.PurePosixPath: the absolute flag and
the normalised component list ("." and empty components removed, ".." kept). -/
structure PPPath where
  absolute : Bool
  parts : List String
  deriving DecidableEq, Repr

/-- CF_FEEDSTOCK_OPS_DIR, the single well-known writable root inside the
container. -/
def cfFeedstockOpsDir : PPPath := ⟨true, ["cf_feedstock_ops_dir"]⟩

/-- RETURN_INFO_FILE_NAME, the reserved file directly under the writable
root through which the container transmits its return info. -/
def returnInfoFileName : String := "return_info.json"

/-- PurePosixPath.is_relative_to: relative_to succeeds exactly when the other
path has the same kind (absolute or relative) and its parts are a prefix of
ours. -/
def PPPath.isRelativeTo (p q : PPPath) : Bool :=
  p.absolute == q.absolute && q.parts.isPrefixOf p.parts

/-- The cached relative_container_path property: container_path minus the
writable-root prefix. -/
def relativeContainerPath (p : PPPath) : List String :=
  p.parts.drop cfFeedstockOpsDir.parts.length

/-- VirtualMount post-init validation of virtual_mounts_host.py: the container
path must be absolute, must be relative to CF_FEEDSTOCK_OPS_DIR, and must not
be CF_FEEDSTOCK_OPS_DIR itself.  No filesystem access occurs: all three checks
are pure path computations. -/
def virtualMountsHostPostInit (containerPath : PPPath) : Except String Unit :=
  if !containerPath.absolute then
    .error "container_path must be an absolute path"
  else if !containerPath.isRelativeTo cfFeedstockOpsDir then
    .error "container_path must be a subdirectory of the ops dir"
  else if containerPath == cfFeedstockOpsDir then
    .error "container_path must not be the ops dir itself"
  else
    .ok ()

/-- VirtualMount post-init validation of container_utils.py: unlike the
virtual_mounts_host variant, it checks only absoluteness and being relative to
the root, and accepts the root itself (the to_cf_feedstock_ops_dir classmethod
constructs exactly that mount). -/
def containerUtilsPostInit (containerPath : PPPath) : Except String Unit :=
  if !containerPath.absolute then
    .error "container_path must be an absolute path"
  else if !containerPath.isRelativeTo cfFeedstockOpsDir then
    .error "container_path must be a subdirectory of the ops dir"
  else
    .ok ()

/-- A container_utils VirtualMount for the mount-assembly model of
run_container_operation: host path components, container path, read-only
flag. -/
structure CUMount where
  hostPath : RPath
  containerPath : PPPath
  readOnly : Bool
  deriving DecidableEq, Repr

/-- The container path of the reserved return-info mount:
CF_FEEDSTOCK_OPS_DIR / RETURN_INFO_FILE_NAME. -/
def returnInfoContainerPath : PPPath :=
  ⟨true, cfFeedstockOpsDir.parts ++ [returnInfoFileName]⟩

/-- The reserved read-write return-info mount constructed by
run_container_operation, whose host path is the return-info file inside the
fresh temporary directory. -/
def reservedReturnInfoMount (tmpdir : RPath) : CUMount :=
  ⟨tmpdir ++ [returnInfoFileName], returnInfoContainerPath, false⟩

/-- The pre-launch mount handling of run_container_operation, translated from
the code between entry and the subprocess launch: the reserved return-info
mount is constructed (running the container_utils post-init validation on its
container path, the only mount check that happens at all) and the caller
mounts are appended.  The source performs no overlap validation of any kind
on the combined mount set before subprocess.run. -/
def runContainerOperationPreLaunch (tmpdir : RPath) (extraMounts : List CUMount) :
    Except String (List CUMount) :=
  match containerUtilsPostInit returnInfoContainerPath with
  | .error e => .error e
  | .ok () => .ok (reservedReturnInfoMount tmpdir :: extraMounts)

/-- The overlap relation the test suite demands a configuration error for:
two paths overlap when they are identical or one is a path-prefix of the
other. -/
def pathsOverlap (p q : RPath) : Bool :=
  p.isPrefixOf q || q.isPrefixOf p

/-- A minimal JSON value for return-info records. -/
inductive JVal where
  | null
  | bool (b : Bool)
  | str (s : String)
  | num (n : Int)
  | obj (fields : List (String × JVal))

/-- Python str.strip strips these whitespace characters (the ASCII ones; the
records handled here are ASCII). -/
def isPySpace (c : Char) : Bool :=
  c == ' ' || c == '\t' || c == '\n' || c == '\x0d' ||
    c == Char.ofNat 11 || c == Char.ofNat 12

/-- Python str.strip. -/
def pyStrip (s : String) : String :=
  ⟨((s.toList.dropWhile isPySpace).reverse.dropWhile isPySpace).reverse⟩

/-- Split at the first occurrence of a character: some (before, after) when
the character occurs, none otherwise (the core of str.split(c, maxsplit=1)). -/
def splitOnceList (c : Char) : List Char → Option (List Char × List Char)
  | [] => none
  | x :: xs =>
    if x = c then some ([], xs)
    else match splitOnceList c xs with
      | some (a, b) => some (x :: a, b)
      | none => none

/-- str.split(c, maxsplit=1)[0], which also equals str.split(c)[0]: the part
before the first occurrence, or the whole string when absent. -/
def pyBeforeFirst (s : String) (c : Char) : String :=
  match splitOnceList c s.toList with
  | some (a, _) => ⟨a⟩
  | none => s

/-- str.split(c, maxsplit=1)[1]: the part after the first occurrence (only
used when the separator is present). -/
def pyAfterFirst (s : String) (c : Char) : String :=
  match splitOnceList c s.toList with
  | some (_, b) => ⟨b⟩
  | none => s

/-- str.rsplit(c, maxsplit=1)[0]: the part before the last occurrence, or the
whole string when absent. -/
def pyBeforeLast (s : String) (c : Char) : String :=
  match splitOnceList c s.toList.reverse with
  | some (_, b) => ⟨b.reverse⟩
  | none => s

/-- Hexadecimal digit value. -/
def hexVal (c : Char) : Option Nat :=
  if '0' ≤ c && c ≤ '9' then some (c.toNat - 48)
  else if 'a' ≤ c && c ≤ 'f' then some (c.toNat - 87)
  else if 'A' ≤ c && c ≤ 'F' then some (c.toNat - 70)
  else none

/-- Octal digit value. -/
def octVal (c : Char) : Option Nat :=
  if '0' ≤ c && c ≤ '7' then some (c.toNat - 48) else none

/-- Assemble a character from a codepoint if it is a valid scalar value;
otherwise fall back to reproducing the original escape text (CPython builds a
str that may hold lone surrogates, which have no counterpart here). -/
def charFromCode (n : Nat) (fallback : List Char) : List Char :=
  if h : n < 0xd800 ∨ (0xdfff < n ∧ n < 0x110000) then [Char.ofNatAux n h]
  else fallback

/-- The single-character escape sequences of the unicode_escape codec. -/
def simpleEscape (e : Char) : Option Char :=
  if e = '\\' then some '\\'
  else if e = 'n' then some '\n'
  else if e = 't' then some '\t'
  else if e = 'r' then some (Char.ofNat 13)
  else if e = 'b' then some (Char.ofNat 8)
  else if e = 'f' then some (Char.ofNat 12)
  else if e = 'v' then some (Char.ofNat 11)
  else if e = 'a' then some (Char.ofNat 7)
  else if e = Char.ofNat 39 then some (Char.ofNat 39)
  else if e = Char.ofNat 34 then some (Char.ofNat 34)
  else none

/-- Value of a fixed-width hexadecimal digit string. -/
def hexN (cs : List Char) : Option Nat :=
  cs.foldlM (fun a c => (hexVal c).map (fun v => a * 16 + v)) 0

/-- Fuel-indexed decoder core; every step consumes at least one input
character, so fuel equal to the input length never runs out (the zero-fuel
branch returns the remainder unchanged and is unreachable from the wrapper
below). -/
def unicodeEscapeGo : Nat → List Char → List Char
  | 0, l => l
  | _, [] => []
  | fuel + 1, c :: rest =>
    if c ≠ '\\' then c :: unicodeEscapeGo fuel rest
    else match rest with
    | [] => ['\\']
    | e :: rest2 =>
      match simpleEscape e with
      | some c2 => c2 :: unicodeEscapeGo fuel rest2
      | none =>
        if e = '\n' then unicodeEscapeGo fuel rest2
        else match octVal e with
        | some o1 =>
          match rest2 with
          | [] => [Char.ofNat o1]
          | d2 :: rest3 =>
            match octVal d2 with
            | none => Char.ofNat o1 :: unicodeEscapeGo fuel rest2
            | some o2 =>
              match rest3 with
              | [] => [Char.ofNat (o1 * 8 + o2)]
              | d3 :: rest4 =>
                match octVal d3 with
                | none => Char.ofNat (o1 * 8 + o2) :: unicodeEscapeGo fuel rest3
                | some o3 =>
                  Char.ofNat (o1 * 64 + o2 * 8 + o3) :: unicodeEscapeGo fuel rest4
        | none =>
          if e = 'x' then
            match rest2 with
            | d1 :: d2 :: rest3 =>
              match hexN [d1, d2] with
              | some n => Char.ofNat n :: unicodeEscapeGo fuel rest3
              | none => '\\' :: 'x' :: unicodeEscapeGo fuel rest2
            | _ => '\\' :: 'x' :: unicodeEscapeGo fuel rest2
          else if e = 'u' then
            match rest2 with
            | d1 :: d2 :: d3 :: d4 :: rest3 =>
              match hexN [d1, d2, d3, d4] with
              | some n =>
                charFromCode n ['\\', 'u', d1, d2, d3, d4] ++
                  unicodeEscapeGo fuel rest3
              | none => '\\' :: 'u' :: unicodeEscapeGo fuel rest2
            | _ => '\\' :: 'u' :: unicodeEscapeGo fuel rest2
          else if e = 'U' then
            match rest2 with
            | d1 :: d2 :: d3 :: d4 :: d5 :: d6 :: d7 :: d8 :: rest3 =>
              match hexN [d1, d2, d3, d4, d5, d6, d7, d8] with
              | some n =>
                charFromCode n ['\\', 'U', d1, d2, d3, d4, d5, d6, d7, d8] ++
                  unicodeEscapeGo fuel rest3
              | none => '\\' :: 'U' :: unicodeEscapeGo fuel rest2
            | _ => '\\' :: 'U' :: unicodeEscapeGo fuel rest2
          else
            '\\' :: e :: unicodeEscapeGo fuel rest2

/-- The effect of s.encode("raw_unicode_escape").decode("unicode_escape") on
a string: raw_unicode_escape maps codepoints below 256 to themselves and
higher ones to backslash-u and backslash-U escapes that unicode_escape
inverts, so the composition decodes the backslash escape sequences already
present in the string and is the identity elsewhere.  Simple escapes, octal,
backslash-x, backslash-u and backslash-U forms are interpreted; an
unrecognised escape is kept verbatim (CPython keeps it with a warning);
named escapes (backslash-N), which need the Unicode name database, and
malformed hex escapes, which make CPython raise UnicodeDecodeError, are kept
verbatim here. -/
def unicodeEscapeList (l : List Char) : List Char :=
  unicodeEscapeGo l.length l

/-- String-level wrapper for the escape round trip applied by
run_container_operation to the error kind, the error message and the
traceback. -/
def pyUnicodeEscape (s : String) : String :=
  ⟨unicodeEscapeList s.toList⟩

/-- A parsed return-info record: the data payload, the optional serialized
error, and the traceback text (only read when an error is present). -/
structure ReturnInfo where
  data : JVal
  error : Option String
  traceback : String

/-- The reconstructed host-side error of run_container_operation: the
formatted message and the attached traceback. -/
structure CRError where
  message : String
  traceback : String
  deriving DecidableEq, Repr

/-- A single-quote character, used in the error message format. -/
def sq : String := String.singleton (Char.ofNat 39)

/-- The error-message format string of run_container_operation for a remote
operation error. -/
def containerErrorMessage (args : List String) (ename retStr : String) : String :=
  "Error running " ++ sq ++ String.intercalate " " args ++ sq ++
    " in container - error " ++ ename ++ " raised:" ++ "\n" ++ retStr

/-- The return-info handling tail of run_container_operation: with no error
key the data field is returned; otherwise the serialized error is split into
an exception-kind token and a message body, supporting the Kind(message)
shape (split at the first opening parenthesis, message up to the last closing
parenthesis), the Kind: message shape (split at the first colon), and a
fallback marker when neither shape matches; the traceback is attached after
the escape round trip.  errorPieces computes the (kind, message) pair exactly
as the branch ladder of the source does. -/
def errorPieces (err : String) : String × String :=
  if err.toList.contains '(' && err.toList.contains ')' then
    (pyUnicodeEscape (pyStrip (pyBeforeFirst err '(')),
      pyUnicodeEscape (pyBeforeLast (pyAfterFirst err '(') ')'))
  else if err.toList.contains ':' then
    (pyUnicodeEscape (pyStrip (pyBeforeFirst err ':')),
      pyUnicodeEscape (pyStrip (pyAfterFirst err ':')))
  else
    ("<could not be parsed", err)

def processReturnInfo (args : List String) (ret : ReturnInfo) : Except CRError JVal :=
  match ret.error with
  | none => .ok ret.data
  | some err =>
    .error ⟨containerErrorMessage args (errorPieces err).1 (errorPieces err).2,
      pyUnicodeEscape ret.traceback⟩

/-- Python dict assignment on an association-list record: replace the value in
place at the first (and in a dict, only) occurrence of the key, append the
pair at the end otherwise. -/
def dictSet : List (String × JVal) → String → JVal → List (String × JVal)
  | [], k, v => [(k, v)]
  | kv :: rest, k, v =>
    if kv.1 == k then (k, v) :: rest else kv :: dictSet rest k v

/-- run_bot_task of the container CLI: the record starts as a copy of the
request keyword parameters; on success the data field is set to the result;
when the operation raises, data is set to the value bound at failure time
(None), error to repr of the exception and traceback to the formatted stack
trace, and the exception is swallowed.  Exactly one record is printed either
way. -/
def runBotTask (kwargs : List (String × JVal))
    (outcome : Except (String × String) JVal) : List (String × JVal) :=
  match outcome with
  | .ok d => dictSet kwargs "data" d
  | .error (erep, tb) =>
    dictSet (dictSet (dictSet kwargs "data" JVal.null) "error" (JVal.str erep))
      "traceback" (JVal.str tb)

/-- should_use_container: defaulting use_container to the negation of the
in_container setting, and returning true only when a container is requested
and we are not already inside one. -/
def shouldUseContainer (inContainer : Bool) (useContainer : Option Bool) : Bool :=
  let u := match useContainer with
    | none => !inContainer
    | some b => b
  u && !inContainer

/-- A path whose components are plain names (no current-dir, parent-dir or
empty components). -/
def pathClean (p : RPath) : Bool :=
  p.all (fun c => !(c == ".") && !(c == "..") && !(c == ""))

/-- A path containing no ignored component. -/
def noIgnoredComp (p : RPath) : Bool :=
  p.all (fun c => !IGNORE_PATHS.contains c)

/-- A mount whose relative container path is nonempty (guaranteed by the
virtual-mounts-host construction validation) and free of ignored components
(true of every real mount; a mount deliberately named after an ignored
component interacts with the exclusion patterns). -/
def mountRelOk (m : VMount) : Bool :=
  !m.relContainerPath.isEmpty && noIgnoredComp m.relContainerPath

/-- The documented mount-set invariant: no two host paths overlap (identical
or one a path-prefix of the other). -/
def pairwiseHostsDisjoint : List VMount → Bool
  | [] => true
  | m :: rest =>
    rest.all (fun m2 => !pathsOverlap m.hostPath m2.hostPath) &&
      pairwiseHostsDisjoint rest

/-- A well-formed directory tree for the round-trip statement: every entry
has a nonempty clean path, keys are pairwise distinct, and every proper
ancestor of an entry is present as a directory. -/
def treeOk (tree : FS) : Bool :=
  tree.all (fun m => !m.1.isEmpty && pathClean m.1) &&
  decide (tree.map Prod.fst).Nodup &&
  tree.all (fun m => (properAncestors m.1).all
    (fun q => List.lookup q tree == some FNode.dir))

/-- A fresh unpack destination: the host path exists as a directory and has
no entries strictly below it. -/
def freshDest (host : FS) (hostPath : RPath) : Bool :=
  (List.lookup hostPath host == some FNode.dir) &&
  host.all (fun m => !(hostPath.isPrefixOf m.1 && decide (m.1 ≠ hostPath)))

/-! Helper lemmas about lookups in the association-list filesystems. -/

theorem lookup_filter_ne {α β : Type} [BEq α] [LawfulBEq α]
    (l : List (α × β)) (k q : α) (h : q ≠ k) :
    List.lookup q (l.filter (fun m => !(m.1 == k))) = List.lookup q l := by
  induction l with
  | nil => rfl
  | cons hd tl ih =>
    by_cases hk : hd.1 = k
    · have h1 : (!(hd.1 == k)) = false := by simp [hk]
      have h2 : (q == hd.1) = false := by simp [hk, h]
      simp [List.filter_cons, h1, List.lookup, h2, ih]
    · have h1 : (!(hd.1 == k)) = true := by simp [hk]
      by_cases hq : q = hd.1
      · have h2 : (q == hd.1) = true := by simp [hq]
        simp [List.filter_cons, h1, List.lookup, h2]
      · have h2 : (q == hd.1) = false := by simp [hq]
        simp [List.filter_cons, h1, List.lookup, h2, ih]

theorem lookup_fsSet (h : FS) (k q : RPath) (n : FNode) :
    List.lookup q (fsSet h k n) = if q = k then some n else List.lookup q h := by
  unfold fsSet
  by_cases hq : q = k
  · have h1 : (q == k) = true := by simp [hq]
    simp [List.lookup, h1, hq]
  · have h1 : (q == k) = false := by simp [hq]
    simp only [List.lookup, h1, if_neg hq]
    exact lookup_filter_ne h k q hq

theorem mem_of_lookup_eq_some {α β : Type} [BEq α] [LawfulBEq α]
    {l : List (α × β)} {k : α} {v : β}
    (h : List.lookup k l = some v) : (k, v) ∈ l := by
  induction l with
  | nil => simp [List.lookup] at h
  | cons hd tl ih =>
    by_cases hk : k = hd.1
    · have h1 : (k == hd.1) = true := by simp [hk]
      simp only [List.lookup, h1] at h
      cases h
      rw [hk]
      exact List.mem_cons_self _ _
    · have h1 : (k == hd.1) = false := by simp [hk]
      simp only [List.lookup, h1] at h
      exact List.mem_cons_of_mem _ (ih h)

theorem lookup_filter_pred {α β : Type} [BEq α] [LawfulBEq α]
    (p : α × β → Bool) (l : List (α × β)) (k : α) (v : β)
    (h : List.lookup k (l.filter p) = some v) :
    p (k, v) = true := by
  have hm := mem_of_lookup_eq_some h
  exact List.of_mem_filter hm

theorem isPrefixOf_iff_exists {α : Type} [BEq α] [LawfulBEq α]
    (l1 l2 : List α) :
    l1.isPrefixOf l2 = true ↔ ∃ t, l2 = l1 ++ t := by
  induction l1 generalizing l2 with
  | nil =>
    simp [List.isPrefixOf]
  | cons a as ih =>
    cases l2 with
    | nil =>
      simp [List.isPrefixOf]
    | cons b bs =>
      rw [List.isPrefixOf_cons₂]
      constructor
      · intro h
        have ha : a = b := by
          have := (Bool.and_eq_true _ _).mp h
          exact eq_of_beq this.1
        have hb := (Bool.and_eq_true _ _).mp h
        obtain ⟨t, ht⟩ := ih bs |>.mp hb.2
        exact ⟨t, by simp [ha, ht]⟩
      · rintro ⟨t, ht⟩
        cases ht
        refine (Bool.and_eq_true _ _).mpr ⟨by simp, ?_⟩
        exact (ih (as ++ t)).mpr ⟨t, rfl⟩

/-! Lemmas about dict assignment for the return-info record. -/

theorem lookup_dictSet_self (d : List (String × JVal)) (k : String) (v : JVal) :
    List.lookup k (dictSet d k v) = some v := by
  induction d with
  | nil => simp [dictSet, List.lookup]
  | cons hd tl ih =>
    by_cases hk : hd.1 = k
    · have h1 : (hd.1 == k) = true := by simp [hk]
      have h2 : (k == k) = true := by simp
      simp [dictSet, h1, List.lookup, h2]
    · have h1 : (hd.1 == k) = false := by simp [hk]
      have h2 : (k == hd.1) = false := by
        simp only [beq_eq_false_iff_ne, ne_eq]
        intro hh
        exact hk hh.symm
      simp [dictSet, h1, List.lookup, h2, ih]

theorem lookup_dictSet_ne (d : List (String × JVal)) (k q : String) (v : JVal)
    (h : q ≠ k) :
    List.lookup q (dictSet d k v) = List.lookup q d := by
  induction d with
  | nil =>
    have h1 : (q == k) = false := by simp [h]
    simp [dictSet, List.lookup, h1]
  | cons hd tl ih =>
    by_cases hk : hd.1 = k
    · have h1 : (hd.1 == k) = true := by simp [hk]
      have h2 : (q == k) = false := by simp [h]
      have h3 : (q == hd.1) = false := by simp [hk, h]
      simp [dictSet, h1, List.lookup, h2, h3, hk]
    · have h1 : (hd.1 == k) = false := by simp [hk]
      by_cases hq : q = hd.1
      · have h2 : (q == hd.1) = true := by simp [hq]
        simp [dictSet, h1, List.lookup, h2]
      · have h2 : (q == hd.1) = false := by simp [hq]
        simp [dictSet, h1, List.lookup, h2, ih]

/-- Claim C10: should_use_container never returns true while already running
inside a container; when the in_container setting is true the result is false
for every value of use_container, and when it is false the result is true
exactly when use_container is true or omitted (None). -/
theorem should_use_container_no_nesting :
    ∀ (u : Option Bool),
      shouldUseContainer true u = false ∧
        (shouldUseContainer false u = true ↔ (u = some true ∨ u = none)) := by
  intro u
  cases u with
  | none => simp [shouldUseContainer]
  | some b => cases b <;> simp [shouldUseContainer]

/-- Claim C4, counterexample: the container_utils VirtualMount accepts a
container path equal to the writable root itself (its classmethod
to_cf_feedstock_ops_dir constructs exactly that mount), while the claim says
every VirtualMount construction fails when container_path equals the root. -/
theorem container_utils_accepts_root :
    containerUtilsPostInit cfFeedstockOpsDir = .ok () := by
  rfl

/-- Claim C4, amended: the virtual_mounts_host VirtualMount fails construction
iff the container path is not absolute, not below the writable root, or equal
to the root itself, and on success relative_container_path is the path minus
the root prefix (a nonempty suffix); the container_utils VirtualMount checks
only absoluteness and being below-or-equal the root, accepting the root
itself.  Construction is a pure path computation in both classes. -/
theorem virtual_mount_post_init_spec :
    ∀ (p : PPPath),
      (virtualMountsHostPostInit p = .ok () ↔
        (p.absolute = true ∧ cfFeedstockOpsDir.parts.isPrefixOf p.parts = true ∧
          p ≠ cfFeedstockOpsDir)) ∧
      (containerUtilsPostInit p = .ok () ↔
        (p.absolute = true ∧ cfFeedstockOpsDir.parts.isPrefixOf p.parts = true)) ∧
      (virtualMountsHostPostInit p = .ok () →
        ∃ suffix, p.parts = cfFeedstockOpsDir.parts ++ suffix ∧
          relativeContainerPath p = suffix ∧ suffix ≠ []) := by
  intro p
  have hrelIff : p.isRelativeTo cfFeedstockOpsDir = true ↔
      (p.absolute = true ∧ cfFeedstockOpsDir.parts.isPrefixOf p.parts = true) := by
    simp [PPPath.isRelativeTo, cfFeedstockOpsDir]
  have hA : virtualMountsHostPostInit p = .ok () ↔
      (p.absolute = true ∧ cfFeedstockOpsDir.parts.isPrefixOf p.parts = true ∧
        p ≠ cfFeedstockOpsDir) := by
    unfold virtualMountsHostPostInit
    split_ifs with h1 h2 h3
    · constructor
      · intro h
        exact h.elim
      · rintro ⟨ha, -, -⟩
        rw [ha] at h1
        simp at h1
    · constructor
      · intro h
        exact h.elim
      · rintro ⟨ha, hpre, -⟩
        have hr := hrelIff.mpr ⟨ha, hpre⟩
        rw [hr] at h2
        simp at h2
    · constructor
      · intro h
        exact h.elim
      · rintro ⟨-, -, hne⟩
        exact hne (eq_of_beq h3)
    · have habs : p.absolute = true := by
        revert h1
        cases p.absolute <;> simp
      have hrel : p.isRelativeTo cfFeedstockOpsDir = true := by
        revert h2
        cases hx : p.isRelativeTo cfFeedstockOpsDir <;> simp
      have hne : p ≠ cfFeedstockOpsDir := by
        intro he
        exact h3 (by rw [he]; simp)
      constructor
      · intro _
        exact ⟨habs, (hrelIff.mp hrel).2, hne⟩
      · intro _
        rfl
  have hB : containerUtilsPostInit p = .ok () ↔
      (p.absolute = true ∧ cfFeedstockOpsDir.parts.isPrefixOf p.parts = true) := by
    unfold containerUtilsPostInit
    split_ifs with h1 h2
    · constructor
      · intro h
        exact h.elim
      · rintro ⟨ha, -⟩
        rw [ha] at h1
        simp at h1
    · constructor
      · intro h
        exact h.elim
      · rintro ⟨ha, hpre⟩
        have hr := hrelIff.mpr ⟨ha, hpre⟩
        rw [hr] at h2
        simp at h2
    · have habs : p.absolute = true := by
        revert h1
        cases p.absolute <;> simp
      have hrel : p.isRelativeTo cfFeedstockOpsDir = true := by
        revert h2
        cases hx : p.isRelativeTo cfFeedstockOpsDir <;> simp
      constructor
      · intro _
        exact ⟨habs, (hrelIff.mp hrel).2⟩
      · intro _
        rfl
  refine ⟨hA, hB, ?_⟩
  intro h
  obtain ⟨habs, hpre, hne⟩ := hA.mp h
  obtain ⟨t, ht⟩ := (isPrefixOf_iff_exists _ _).mp hpre
  refine ⟨t, ht, ?_, ?_⟩
  · simp [relativeContainerPath, cfFeedstockOpsDir, ht]
  · intro hnil
    subst hnil
    rw [List.append_nil] at ht
    apply hne
    cases p with
    | mk a ps =>
      simp only at habs ht
      rw [habs, ht]
      rfl

/-- Witness for the amended claim C4 at a concrete container path directly
below the writable root. -/
theorem virtual_mount_post_init_spec_witness :
    ∃ suffix,
      (PPPath.mk true ["cf_feedstock_ops_dir", "subdir"]).parts =
          cfFeedstockOpsDir.parts ++ suffix ∧
        relativeContainerPath ⟨true, ["cf_feedstock_ops_dir", "subdir"]⟩ =
          suffix ∧ suffix ≠ [] :=
  (virtual_mount_post_init_spec ⟨true, ["cf_feedstock_ops_dir", "subdir"]⟩).2.2
    (by rfl)

/-- Claim C5: run_container_operation is claimed to validate the combined
mount set for host-path and container-path overlap before launching the
container; the code performs no such validation (its own test suite expects a
ValueError for each overlap kind).  This theorem evaluates the pre-launch
mount handling on the overlapping mount set used by the test suite: both
mounts pass construction, their host paths are identical (hence overlap),
and the pre-launch phase succeeds without any configuration error, handing
the full mount list on to the process launch; a caller mount aimed at the
reserved return-info path is likewise accepted. -/
theorem run_container_operation_skips_overlap_validation :
    containerUtilsPostInit ⟨true, ["cf_feedstock_ops_dir", "path1"]⟩ = .ok () ∧
    containerUtilsPostInit ⟨true, ["cf_feedstock_ops_dir", "path2"]⟩ = .ok () ∧
    pathsOverlap ["host", "path"] ["host", "path"] = true ∧
    runContainerOperationPreLaunch ["tmp"]
        [⟨["host", "path"], ⟨true, ["cf_feedstock_ops_dir", "path1"]⟩, true⟩,
         ⟨["host", "path"], ⟨true, ["cf_feedstock_ops_dir", "path2"]⟩, true⟩] =
      .ok [reservedReturnInfoMount ["tmp"],
        ⟨["host", "path"], ⟨true, ["cf_feedstock_ops_dir", "path1"]⟩, true⟩,
        ⟨["host", "path"], ⟨true, ["cf_feedstock_ops_dir", "path2"]⟩, true⟩] ∧
    runContainerOperationPreLaunch ["tmp"]
        [⟨["host", "path"], returnInfoContainerPath, true⟩] =
      .ok [reservedReturnInfoMount ["tmp"],
        ⟨["host", "path"], returnInfoContainerPath, true⟩] := by
  refine ⟨rfl, rfl, rfl, rfl, rfl⟩

/-- Claim C2: the claim (and the test suite) say a single-file scratch entry
replaces a pre-existing directory at the mount host path; shutil.copy2 with a
directory destination instead copies the file inside that directory, so the
host path remains a directory holding the file under the basename of the
source.  This theorem evaluates the unpack pipeline at such an input: the run
succeeds, the host path is still a directory afterwards, and the file
content landed below it instead of at it. -/
theorem untar_single_file_keeps_directory :
    (untarMountsFromStream false [(["f"], FNode.file [7] false)]
        [⟨["h"], ["f"], false⟩] [(["h"], FNode.dir)]).1 = .ok () ∧
    List.lookup ["h"]
        (untarMountsFromStream false [(["f"], FNode.file [7] false)]
          [⟨["h"], ["f"], false⟩] [(["h"], FNode.dir)]).2 = some FNode.dir ∧
    List.lookup ["h", "f"]
        (untarMountsFromStream false [(["f"], FNode.file [7] false)]
          [⟨["h"], ["f"], false⟩] [(["h"], FNode.dir)]).2 =
      some (FNode.file [7] false) := by
  refine ⟨rfl, rfl, rfl⟩

/-- Claim C9: the container-side task runner produces exactly one return-info
record whether or not the operation raises; on success the record holds the
request keyword parameters and a data field with the result; on failure it
holds the parameters, a null data field, an error field with the exception
repr and a traceback field with the formatted stack trace, the exception
being swallowed (the model function is total). -/
theorem run_bot_task_record_spec :
    ∀ (kwargs : List (String × JVal)) (d : JVal) (erep tb : String),
      (List.lookup "data" (runBotTask kwargs (.ok d)) = some d) ∧
      (∀ k, k ≠ "data" →
        List.lookup k (runBotTask kwargs (.ok d)) = List.lookup k kwargs) ∧
      (List.lookup "data" (runBotTask kwargs (.error (erep, tb))) =
          some JVal.null ∧
        List.lookup "error" (runBotTask kwargs (.error (erep, tb))) =
          some (JVal.str erep) ∧
        List.lookup "traceback" (runBotTask kwargs (.error (erep, tb))) =
          some (JVal.str tb)) ∧
      (∀ k, k ≠ "data" → k ≠ "error" → k ≠ "traceback" →
        List.lookup k (runBotTask kwargs (.error (erep, tb))) =
          List.lookup k kwargs) := by
  intro kwargs d erep tb
  refine ⟨?_, ?_, ⟨?_, ?_, ?_⟩, ?_⟩
  · exact lookup_dictSet_self kwargs "data" d
  · intro k hk
    exact lookup_dictSet_ne kwargs "data" k d hk
  · show List.lookup "data"
      (dictSet (dictSet (dictSet kwargs "data" JVal.null) "error"
        (JVal.str erep)) "traceback" (JVal.str tb)) = some JVal.null
    rw [lookup_dictSet_ne _ _ _ _ (by decide)]
    rw [lookup_dictSet_ne _ _ _ _ (by decide)]
    exact lookup_dictSet_self _ _ _
  · show List.lookup "error"
      (dictSet (dictSet (dictSet kwargs "data" JVal.null) "error"
        (JVal.str erep)) "traceback" (JVal.str tb)) = some (JVal.str erep)
    rw [lookup_dictSet_ne _ _ _ _ (by decide)]
    exact lookup_dictSet_self _ _ _
  · exact lookup_dictSet_self _ _ _
  · intro k h1 h2 h3
    show List.lookup k
      (dictSet (dictSet (dictSet kwargs "data" JVal.null) "error"
        (JVal.str erep)) "traceback" (JVal.str tb)) = List.lookup k kwargs
    rw [lookup_dictSet_ne _ _ _ _ h3, lookup_dictSet_ne _ _ _ _ h2,
      lookup_dictSet_ne _ _ _ _ h1]

/-- Witness for claim C9 at a concrete request: the success record returns
the operation result under data, and the failure record keeps the original
log_level parameter. -/
theorem run_bot_task_record_spec_witness :
    List.lookup "data"
        (runBotTask [("log_level", JVal.str "info")]
          (.ok (JVal.obj [("ok", JVal.bool true)]))) =
      some (JVal.obj [("ok", JVal.bool true)]) ∧
    List.lookup "log_level"
        (runBotTask [("log_level", JVal.str "info")] (.error ("E", "T"))) =
      some (JVal.str "info") :=
  ⟨(run_bot_task_record_spec [("log_level", JVal.str "info")]
      (JVal.obj [("ok", JVal.bool true)]) "E" "T").1,
    (run_bot_task_record_spec [("log_level", JVal.str "info")]
      (JVal.obj [("ok", JVal.bool true)]) "E" "T").2.2.2 "log_level"
      (by decide) (by decide) (by decide)⟩

/-! Infrastructure lemmas for the unpack pipeline proofs. -/

theorem contains_of_mem {α : Type} [BEq α] [LawfulBEq α] {l : List α} {c : α}
    (h : c ∈ l) : l.contains c = true :=
  List.elem_iff.mpr h

theorem contains_false_of_not_mem {α : Type} [BEq α] [LawfulBEq α]
    {l : List α} {c : α} (h : c ∉ l) : l.contains c = false := by
  cases hx : l.contains c with
  | false => rfl
  | true => exact absurd (List.elem_iff.mp hx) h

theorem lookup_eq_none_of_not_mem_keys {α β : Type} [BEq α] [LawfulBEq α]
    {l : List (α × β)} {k : α} (h : k ∉ l.map Prod.fst) :
    List.lookup k l = none := by
  induction l with
  | nil => rfl
  | cons hd tl ih =>
    have h1 : k ≠ hd.1 := fun he => h (by simp [he])
    have h2 : k ∉ tl.map Prod.fst := fun hm => h (by simp at hm ⊢; right; exact hm)
    have hb : (k == hd.1) = false := by simp [h1]
    simp only [List.lookup, hb]
    exact ih h2

theorem lookup_isSome_of_mem {α β : Type} [BEq α] [LawfulBEq α]
    {l : List (α × β)} {k : α} {v : β} (h : (k, v) ∈ l) :
    (List.lookup k l).isSome = true := by
  induction l with
  | nil => simp at h
  | cons hd tl ih =>
    by_cases hk : k = hd.1
    · have hb : (k == hd.1) = true := by simp [hk]
      simp [List.lookup, hb]
    · have hb : (k == hd.1) = false := by simp [hk]
      simp only [List.lookup, hb]
      rcases List.mem_cons.mp h with he | hm
      · exact absurd (congrArg Prod.fst he) hk
      · exact ih hm

theorem lookup_filter_key (l : FS) (pk : RPath → Bool) (q : RPath) :
    List.lookup q (l.filter (fun m => pk m.1)) =
      if pk q then List.lookup q l else none := by
  induction l with
  | nil => simp [List.lookup]
  | cons hd tl ih =>
    by_cases hph : pk hd.1 = true
    · simp only [List.filter_cons, hph, if_true]
      by_cases hq : q = hd.1
      · have hb : (q == hd.1) = true := by simp [hq]
        simp [List.lookup, hb, hq, hph]
      · have hb : (q == hd.1) = false := by simp [hq]
        simp only [List.lookup, hb]
        exact ih
    · have hph2 : pk hd.1 = false := by
        revert hph
        cases pk hd.1 <;> simp
      simp only [List.filter_cons, hph2, Bool.false_eq_true, if_false]
      rw [ih]
      by_cases hq : q = hd.1
      · rw [hq, hph2]
        simp
      · have hb : (q == hd.1) = false := by simp [hq]
        simp only [List.lookup, hb]

theorem lookup_filter_of_nodup (l : FS) (pred : RPath × FNode → Bool) (q : RPath)
    (hnd : (l.map Prod.fst).Nodup) :
    List.lookup q (l.filter pred) =
      (match List.lookup q l with
        | some v => if pred (q, v) then some v else none
        | none => none) := by
  induction l with
  | nil => simp [List.lookup]
  | cons hd tl ih =>
    have hnd2 : (tl.map Prod.fst).Nodup := (List.nodup_cons.mp hnd).2
    have hnotin : hd.1 ∉ tl.map Prod.fst := (List.nodup_cons.mp hnd).1
    by_cases hq : q = hd.1
    · have hb : (q == hd.1) = true := by simp [hq]
      by_cases hp : pred hd = true
      · simp only [List.filter_cons, hp, if_true, List.lookup, hb]
        have he2 : (q, hd.2) = hd := by
          rw [hq]
        rw [he2, hp]
        simp
      · have hp2 : pred hd = false := by
          revert hp
          cases pred hd <;> simp
        simp only [List.filter_cons, hp2, Bool.false_eq_true, if_false,
          List.lookup, hb]
        have hk : q ∉ (tl.filter pred).map Prod.fst := by
          intro hm
          apply hnotin
          rw [← hq]
          obtain ⟨m, hm1, hm2⟩ := List.mem_map.mp hm
          exact List.mem_map.mpr ⟨m, (List.mem_filter.mp hm1).1, hm2⟩
        rw [lookup_eq_none_of_not_mem_keys hk]
        have hph : pred (q, hd.2) = false := by
          have : (q, hd.2) = hd := by rw [hq]
          rw [this, hp2]
        rw [hph]
        simp
    · have hb : (q == hd.1) = false := by simp [hq]
      by_cases hp : pred hd = true
      · simp only [List.filter_cons, hp, if_true, List.lookup, hb]
        exact ih hnd2
      · have hp2 : pred hd = false := by
          revert hp
          cases pred hd <;> simp
        simp only [List.filter_cons, hp2, Bool.false_eq_true, if_false,
          List.lookup, hb]
        exact ih hnd2

theorem lookup_foldl_fsSet (g : RPath × FNode → RPath) (sub : FS) (h0 : FS)
    (q : RPath) :
    List.lookup q (sub.foldl (fun h m => fsSet h (g m) m.2) h0) =
      (match sub.reverse.find? (fun m => g m == q) with
        | some m => some m.2
        | none => List.lookup q h0) := by
  induction sub generalizing h0 with
  | nil => simp
  | cons hd tl ih =>
    simp only [List.foldl_cons, List.reverse_cons]
    rw [ih]
    rw [List.find?_append]
    cases hfind : tl.reverse.find? (fun m => g m == q) with
    | some m => simp [Option.or]
    | none =>
      simp only [Option.or, Option.none_or]
      by_cases hq : g hd = q
      · have hbq : (g hd == q) = true := by simp [hq]
        simp only [List.find?_cons, hbq, List.find?_nil]
        rw [lookup_fsSet]
        rw [if_pos hq.symm]
      · have hbq : (g hd == q) = false := by simp [hq]
        simp only [List.find?_cons, hbq, List.find?_nil]
        rw [lookup_fsSet]
        rw [if_neg (fun he => hq he.symm)]

theorem find?_key_unique (l : FS) (pk : RPath × FNode → Bool) (k : RPath)
    (v : FNode) (hnd : (l.map Prod.fst).Nodup) (hm : (k, v) ∈ l)
    (hpk : ∀ m ∈ l, (pk m = true ↔ m.1 = k)) :
    l.find? pk = some (k, v) := by
  induction l with
  | nil => simp at hm
  | cons hd tl ih =>
    have hnd2 : (tl.map Prod.fst).Nodup := (List.nodup_cons.mp hnd).2
    have hnotin : hd.1 ∉ tl.map Prod.fst := (List.nodup_cons.mp hnd).1
    rcases List.mem_cons.mp hm with he | hmem
    · have hpkhd : pk hd = true :=
        (hpk hd (List.mem_cons_self _ _)).mpr (by rw [← he])
      rw [List.find?_cons, hpkhd, ← he]
    · have hk : k ∈ tl.map Prod.fst :=
        List.mem_map.mpr ⟨(k, v), hmem, rfl⟩
      have hne : hd.1 ≠ k := fun he2 => hnotin (he2 ▸ hk)
      have hpkhd : pk hd = false := by
        cases hx : pk hd with
        | false => rfl
        | true => exact absurd ((hpk hd (List.mem_cons_self _ _)).mp hx) hne
      rw [List.find?_cons, hpkhd]
      exact ih hnd2 hmem (fun m' hm' => hpk m' (List.mem_cons_of_mem _ hm'))

theorem nodup_keys_filter (l : FS) (pred : RPath × FNode → Bool)
    (h : (l.map Prod.fst).Nodup) :
    ((l.filter pred).map Prod.fst).Nodup :=
  List.Nodup.sublist (List.Sublist.map Prod.fst (List.filter_sublist l)) h

theorem dedupSeen_sublist (seen : List RPath) (l : FS) :
    ∀ m ∈ dedupSeen seen l, m ∈ l := by
  induction l generalizing seen with
  | nil => simp [dedupSeen]
  | cons hd tl ih =>
    intro m hm
    unfold dedupSeen at hm
    by_cases hc : seen.contains hd.1 = true
    · rw [if_pos hc] at hm
      exact List.mem_cons_of_mem _ (ih seen m hm)
    · rw [if_neg hc] at hm
      rcases List.mem_cons.mp hm with he | hmem
      · exact he ▸ List.mem_cons_self _ _
      · exact List.mem_cons_of_mem _ (ih _ m hmem)

theorem dedupSeen_keys (seen : List RPath) (l : FS) :
    ((dedupSeen seen l).map Prod.fst).Nodup ∧
      ∀ k ∈ (dedupSeen seen l).map Prod.fst, k ∉ seen := by
  induction l generalizing seen with
  | nil => simp [dedupSeen]
  | cons hd tl ih =>
    unfold dedupSeen
    by_cases hc : seen.contains hd.1 = true
    · rw [if_pos hc]
      exact ih seen
    · rw [if_neg hc]
      have hns : hd.1 ∉ seen := by
        intro hm
        exact hc (contains_of_mem hm)
      obtain ⟨ihnd, ihseen⟩ := ih (hd.1 :: seen)
      constructor
      · rw [List.map_cons, List.nodup_cons]
        refine ⟨?_, ihnd⟩
        intro hm
        exact (ihseen hd.1 hm) (List.mem_cons_self _ _)
      · intro k hk
        rw [List.map_cons] at hk
        rcases List.mem_cons.mp hk with he | hmem
        · rw [he]
          exact hns
        · exact fun hs => (ihseen k hmem) (List.mem_cons_of_mem _ hs)

theorem dedupSeen_eq_self (seen : List RPath) (l : FS)
    (hnd : (l.map Prod.fst).Nodup) (hdisj : ∀ m ∈ l, m.1 ∉ seen) :
    dedupSeen seen l = l := by
  induction l generalizing seen with
  | nil => rfl
  | cons hd tl ih =>
    unfold dedupSeen
    have hc : seen.contains hd.1 = false :=
      contains_false_of_not_mem (hdisj hd (List.mem_cons_self _ _))
    rw [if_neg (by intro hx; rw [hc] at hx; exact Bool.noConfusion hx)]
    congr 1
    apply ih
    · exact (List.nodup_cons.mp hnd).2
    · intro m hm
      intro hs
      rcases List.mem_cons.mp hs with he | hseen
      · exact (List.nodup_cons.mp hnd).1 (he ▸ List.mem_map.mpr ⟨m, hm, rfl⟩)
      · exact hdisj m (List.mem_cons_of_mem _ hm) hseen

theorem dedupKeepLast_eq_self (l : FS) (hnd : (l.map Prod.fst).Nodup) :
    dedupKeepLast l = l := by
  unfold dedupKeepLast dedupByKey
  rw [dedupSeen_eq_self]
  · exact List.reverse_reverse l
  · rw [List.map_reverse]
    exact List.nodup_reverse.mpr hnd
  · intro m _ hs
    simp at hs

theorem extractTar_keys_nodup (members : List (RPath × FNode)) (s : FS)
    (h : extractTar members = .ok s) : (s.map Prod.fst).Nodup := by
  unfold extractTar at h
  by_cases hbad : (members.map (fun m => (cleanMemberPath m.1, m.2))).any
      (fun m => m.1.isEmpty || m.1.contains "..") = true
  · rw [if_pos hbad] at h
    exact Except.noConfusion h
  · rw [if_neg hbad] at h
    cases h
    unfold addImplicitDirs
    rw [List.map_append, List.nodup_append]
    have hdk : ((dedupKeepLast ((members.map
        (fun m => (cleanMemberPath m.1, m.2))).filter
        (fun m => !tarExcluded m.1))).map Prod.fst).Nodup := by
      unfold dedupKeepLast dedupByKey
      rw [List.map_reverse]
      exact List.nodup_reverse.mpr (dedupSeen_keys [] _).1
    refine ⟨hdk, ?_, ?_⟩
    · unfold dedupByKey
      exact (dedupSeen_keys [] _).1
    · intro k hk1 hk2
      obtain ⟨m, hm1, hm2⟩ := List.mem_map.mp hk2
      have hm3 := dedupSeen_sublist [] _ m hm1
      obtain ⟨q, hq1, hq2⟩ := List.mem_map.mp hm3
      have hnone := (List.mem_filter.mp hq1).2
      have hkq : q = k := by rw [← hm2, ← hq2]
      rw [hkq] at hnone
      rw [Option.isNone_iff_eq_none] at hnone
      obtain ⟨m2, hm21, hm22⟩ := List.mem_map.mp hk1
      have hpair : (k, m2.2) ∈ dedupKeepLast ((members.map
          (fun m => (cleanMemberPath m.1, m.2))).filter
          (fun m => !tarExcluded m.1)) := by
        have he2 : (k, m2.2) = m2 := by rw [← hm22]
        rw [he2]
        exact hm21
      have hsome := lookup_isSome_of_mem hpair
      rw [hnone] at hsome
      exact Bool.noConfusion hsome


theorem isPrefixOf_self_append (a b : RPath) : a.isPrefixOf (a ++ b) = true :=
  (isPrefixOf_iff_exists _ _).mpr ⟨b, rfl⟩

theorem isPrefixOf_refl_path (a : RPath) : a.isPrefixOf a = true :=
  (isPrefixOf_iff_exists _ _).mpr ⟨[], (List.append_nil a).symm⟩

theorem prefix_append_cases (a b c : RPath) (h : a.isPrefixOf (b ++ c) = true) :
    a.isPrefixOf b = true ∨ b.isPrefixOf a = true := by
  obtain ⟨t, ht⟩ := (isPrefixOf_iff_exists _ _).mp h
  rcases List.append_eq_append_iff.mp ht with ⟨x, hx, -⟩ | ⟨y, hy, -⟩
  · right
    exact (isPrefixOf_iff_exists _ _).mpr ⟨x, hx⟩
  · left
    exact (isPrefixOf_iff_exists _ _).mpr ⟨y, hy⟩

theorem tarExcluded_false_iff (p : RPath) :
    tarExcluded p = false ↔
      ∀ c ∈ p.drop 1, IGNORE_PATHS.contains c = false := by
  unfold tarExcluded
  rw [List.any_eq_false]
  constructor
  · intro h c hc
    have h2 := h c hc
    revert h2
    cases IGNORE_PATHS.contains c <;> simp
  · intro h c hc
    rw [h c hc]
    simp

theorem tarExcluded_take (p : RPath) (i : Nat) (h : tarExcluded p = false) :
    tarExcluded (p.take i) = false := by
  rw [tarExcluded_false_iff] at h ⊢
  intro c hc
  rw [List.drop_take] at hc
  exact h c (List.Sublist.mem hc (List.take_sublist _ _))

theorem mem_foldr_ancestors (l : FS) (q : RPath) :
    q ∈ l.foldr (fun m acc => properAncestors m.1 ++ acc) [] ↔
      ∃ m ∈ l, q ∈ properAncestors m.1 := by
  induction l with
  | nil =>
    constructor
    · intro h
      exact absurd h (List.not_mem_nil q)
    · rintro ⟨m, hm, -⟩
      exact absurd hm (List.not_mem_nil m)
  | cons hd tl ih =>
    simp only [List.foldr_cons, List.mem_append, ih]
    constructor
    · rintro (h | ⟨m, hm, hq⟩)
      · exact ⟨hd, List.mem_cons_self _ _, h⟩
      · exact ⟨m, List.mem_cons_of_mem _ hm, hq⟩
    · rintro ⟨m, hm, hq⟩
      rcases List.mem_cons.mp hm with he | hm2
      · left
        rw [← he]
        exact hq
      · right
        exact ⟨m, hm2, hq⟩

theorem properAncestors_spec (q k : RPath) (h : q ∈ properAncestors k) :
    ∃ i, 1 ≤ i ∧ i < k.length ∧ q = k.take i := by
  unfold properAncestors at h
  obtain ⟨i, hi, hq⟩ := List.mem_map.mp h
  cases hlen : k.length with
  | zero =>
    rw [hlen] at hi
    simp at hi
  | succ n =>
    rw [hlen, List.range_succ_eq_map, List.drop_one, List.tail_cons] at hi
    obtain ⟨j, hj, hji⟩ := List.mem_map.mp hi
    refine ⟨i, ?_, ?_, hq.symm⟩
    · rw [← hji]
      exact Nat.succ_le_succ (Nat.zero_le j)
    · have hj2 := List.mem_range.mp hj
      omega

theorem mem_dedupKeepLast (l : FS) (m : RPath × FNode)
    (h : m ∈ dedupKeepLast l) : m ∈ l := by
  unfold dedupKeepLast dedupByKey at h
  rw [List.mem_reverse] at h
  have h2 := dedupSeen_sublist [] _ m h
  rw [List.mem_reverse] at h2
  exact h2

theorem extractTar_not_excluded (members : List (RPath × FNode)) (s : FS)
    (h : extractTar members = .ok s) : ∀ m ∈ s, tarExcluded m.1 = false := by
  unfold extractTar at h
  by_cases hbad : ((members.map (fun m => (cleanMemberPath m.1, m.2))).any
      (fun m => m.1.isEmpty || m.1.contains "..")) = true
  · rw [if_pos hbad] at h
    exact Except.noConfusion h
  · rw [if_neg hbad] at h
    cases h
    intro m hm
    have hfromFiltered : ∀ m2 : RPath × FNode,
        m2 ∈ dedupKeepLast ((members.map
          (fun m => (cleanMemberPath m.1, m.2))).filter
          (fun m => !tarExcluded m.1)) →
        tarExcluded m2.1 = false := by
      intro m2 hm2
      have h3 := List.of_mem_filter (mem_dedupKeepLast _ _ hm2)
      revert h3
      cases tarExcluded m2.1 <;> simp
    rcases List.mem_append.mp hm with h1 | h2
    · exact hfromFiltered m h1
    · obtain ⟨q, hq1, hq2⟩ := List.mem_map.mp (dedupSeen_sublist [] _ m h2)
      have hq3 := (List.mem_filter.mp hq1).1
      obtain ⟨m2, hm2, hanc⟩ := (mem_foldr_ancestors _ _).mp hq3
      obtain ⟨i, -, -, hqi⟩ := properAncestors_spec _ _ hanc
      have hm2ex := hfromFiltered m2 hm2
      rw [← hq2]
      show tarExcluded q = false
      rw [hqi]
      exact tarExcluded_take _ _ hm2ex

/-! Frame lemmas: which paths an applyMount step can touch. -/

theorem lookup_deleteNonIgnorePaths (host : FS) (t : RPath) (q : RPath) :
    List.lookup q (deleteNonIgnorePaths host t) =
      if deletedBelow t q then none else List.lookup q host := by
  unfold deleteNonIgnorePaths
  rw [lookup_filter_key host (fun p => !deletedBelow t p) q]
  cases h : deletedBelow t q <;> simp [h]

theorem deletedBelow_false_of_no_prefix (t q : RPath)
    (h : t.isPrefixOf q = false) : deletedBelow t q = false := by
  unfold deletedBelow
  rw [h]
  simp

theorem deletedBelow_false_of_ignored_head (t : RPath) (c : String)
    (tail : RPath) (hc : c ∈ IGNORE_PATHS) :
    deletedBelow t (t ++ c :: tail) = false := by
  unfold deletedBelow
  have hdrop : (t ++ c :: tail).drop t.length = c :: tail := by
    rw [List.drop_left]
  rw [hdrop]
  show (t.isPrefixOf (t ++ c :: tail) && decide (t ++ c :: tail ≠ t) &&
    !IGNORE_PATHS.contains c) = false
  rw [contains_of_mem hc]
  simp

theorem append_cons_ne_self (t : RPath) (c : String) (tail : RPath) :
    t ++ c :: tail ≠ t := by
  intro he
  have hl := congrArg List.length he
  simp at hl

theorem deletedBelow_true_of_clear_head (t : RPath) (c : String) (tail : RPath)
    (hc : IGNORE_PATHS.contains c = false) :
    deletedBelow t (t ++ c :: tail) = true := by
  unfold deletedBelow
  have hdrop : (t ++ c :: tail).drop t.length = c :: tail := by
    rw [List.drop_left]
  rw [hdrop]
  show (t.isPrefixOf (t ++ c :: tail) && decide (t ++ c :: tail ≠ t) &&
    !IGNORE_PATHS.contains c) = true
  rw [isPrefixOf_self_append, hc]
  simp [append_cons_ne_self]

theorem copy2Model_frame (host1 : FS) (hp : RPath) (srcName : String)
    (n : FNode) (q : RPath) (h : hp.isPrefixOf q = false) :
    List.lookup q (copy2Model host1 hp srcName n) = List.lookup q host1 := by
  have h1 : q ≠ hp := by
    intro he
    rw [he, isPrefixOf_refl_path] at h
    exact Bool.noConfusion h
  have h2 : q ≠ hp ++ [srcName] := by
    intro he
    rw [he, isPrefixOf_self_append] at h
    exact Bool.noConfusion h
  unfold copy2Model
  cases hl : List.lookup hp host1 with
  | none =>
    simp only [hl]
    rw [lookup_fsSet, if_neg h1]
  | some n2 =>
    cases n2 with
    | dir =>
      simp only [hl]
      rw [lookup_fsSet, if_neg h2]
    | file c e =>
      simp only [hl]
      rw [lookup_fsSet, if_neg h1]
    | symlink ab tg =>
      simp only [hl]
      rw [lookup_fsSet, if_neg h1]

theorem copyTreeModel_frame (scratch : FS) (rel : List String) (host1 : FS)
    (hp : RPath) (q : RPath) (h : hp.isPrefixOf q = false) :
    List.lookup q (copyTreeModel scratch rel host1 hp) =
      List.lookup q host1 := by
  have h1 : q ≠ hp := by
    intro he
    rw [he, isPrefixOf_refl_path] at h
    exact Bool.noConfusion h
  unfold copyTreeModel
  rw [lookup_foldl_fsSet]
  have hfind : ((scratch.filter (fun m => rel.isPrefixOf m.1 &&
      decide (m.1 ≠ rel))).reverse.find?
      (fun m => (hp ++ m.1.drop rel.length) == q)) = none := by
    rw [List.find?_eq_none]
    intro x _
    intro hpx
    have hx : hp ++ x.1.drop rel.length = q := eq_of_beq hpx
    rw [← hx, isPrefixOf_self_append] at h
    exact Bool.noConfusion h
  rw [hfind, lookup_fsSet, if_neg h1]

theorem copyTreeStep_frame (scratch host1 : FS) (m : VMount) (q : RPath)
    (h : m.hostPath.isPrefixOf q = false) :
    List.lookup q (copyTreeStep scratch host1 m).2 = List.lookup q host1 := by
  unfold copyTreeStep
  by_cases hmiss : ((List.lookup m.relContainerPath scratch).isNone &&
      (scratch.filter (fun x =>
        m.relContainerPath.isPrefixOf x.1 &&
          decide (x.1 ≠ m.relContainerPath))).isEmpty) = true
  · rw [if_pos hmiss]
  · rw [if_neg hmiss]
    cases hl : List.lookup m.hostPath host1 with
    | none =>
      simp only [hl]
      exact copyTreeModel_frame _ _ _ _ _ h
    | some n2 =>
      cases n2 with
      | file c e => simp only [hl]
      | symlink ab tg => simp only [hl]
      | dir =>
        simp only [hl]
        exact copyTreeModel_frame _ _ _ _ _ h

theorem applyMount_frame (scratch host : FS) (m : VMount) (q : RPath)
    (h : m.hostPath.isPrefixOf q = false) :
    List.lookup q (applyMount scratch host m).2 = List.lookup q host := by
  unfold applyMount
  by_cases hro : m.readOnly = true
  · rw [if_pos hro]
  · rw [if_neg hro]
    have hdel : List.lookup q (deleteNonIgnorePaths host m.hostPath) =
        List.lookup q host := by
      rw [lookup_deleteNonIgnorePaths,
        deletedBelow_false_of_no_prefix _ _ h]
      simp
    unfold applyMountCopy
    cases hsc : List.lookup m.relContainerPath scratch with
    | some n =>
      cases n with
      | file c e =>
        simp only [hsc]
        rw [copy2Model_frame _ _ _ _ _ h, hdel]
      | dir =>
        simp only [hsc]
        rw [copyTreeStep_frame _ _ _ _ h, hdel]
      | symlink ab tg =>
        simp only [hsc]
        rw [copyTreeStep_frame _ _ _ _ h, hdel]
    | none =>
      simp only [hsc]
      rw [copyTreeStep_frame _ _ _ _ h, hdel]

theorem applyMounts_cons_ok (scratch : FS) (m : VMount) (rest : List VMount)
    (host host1 : FS) (ham : applyMount scratch host m = (.ok (), host1)) :
    applyMounts scratch (m :: rest) host = applyMounts scratch rest host1 := by
  show (match applyMount scratch host m with
    | (.ok (), h1) => applyMounts scratch rest h1
    | (.error e, h1) => (.error e, h1)) = applyMounts scratch rest host1
  rw [ham]

theorem applyMounts_cons_err (scratch : FS) (m : VMount) (rest : List VMount)
    (host host1 : FS) (e : String)
    (ham : applyMount scratch host m = (.error e, host1)) :
    applyMounts scratch (m :: rest) host = (.error e, host1) := by
  show (match applyMount scratch host m with
    | (.ok (), h1) => applyMounts scratch rest h1
    | (.error e, h1) => (.error e, h1)) = (.error e, host1)
  rw [ham]

theorem applyMounts_lookup_after (scratch : FS) (mounts : List VMount)
    (host : FS) (q : RPath)
    (h : ∀ m ∈ mounts, m.hostPath.isPrefixOf q = false) :
    List.lookup q (applyMounts scratch mounts host).2 = List.lookup q host := by
  induction mounts generalizing host with
  | nil => rfl
  | cons m rest ih =>
    cases ham : applyMount scratch host m with
    | mk res host1 =>
      have hstep : List.lookup q host1 = List.lookup q host := by
        have hf := applyMount_frame scratch host m q
          (h m (List.mem_cons_self _ _))
        rw [ham] at hf
        exact hf
      cases res with
      | ok u =>
        cases u
        rw [applyMounts_cons_ok scratch m rest host host1 ham,
          ih host1 (fun m2 hm2 => h m2 (List.mem_cons_of_mem _ hm2)), hstep]
      | error e =>
        rw [applyMounts_cons_err scratch m rest host host1 e ham]
        exact hstep

/-- Survival of the delete step: a surviving lookup was already present. -/
theorem lookup_some_of_delete (host : FS) (t q : RPath) (v : FNode)
    (h : List.lookup q (deleteNonIgnorePaths host t) = some v) :
    List.lookup q host = some v := by
  rw [lookup_deleteNonIgnorePaths] at h
  by_cases hd : deletedBelow t q = true
  · rw [if_pos hd] at h
    exact Option.noConfusion h
  · rw [if_neg hd] at h
    exact h

/-- Provenance of a symlink after one mount application: it was already on
the host or it is a scratch entry (the copy functions write only scratch
nodes, a directory marker, or a file). -/
theorem applyMount_symlink_src (scratch host : FS) (m : VMount) (q : RPath)
    (ab : Bool) (tgt : List String)
    (h : List.lookup q (applyMount scratch host m).2 =
      some (FNode.symlink ab tgt)) :
    List.lookup q host = some (FNode.symlink ab tgt) ∨
      ∃ s, (s, FNode.symlink ab tgt) ∈ scratch := by
  unfold applyMount at h
  by_cases hro : m.readOnly = true
  · rw [if_pos hro] at h
    left
    exact h
  · rw [if_neg hro] at h
    have hdel : ∀ v : FNode,
        List.lookup q (deleteNonIgnorePaths host m.hostPath) = some v →
        List.lookup q host = some v := fun v hv =>
      lookup_some_of_delete host m.hostPath q v hv
    have hcopytree : List.lookup q (copyTreeStep scratch
        (deleteNonIgnorePaths host m.hostPath) m).2 =
        some (FNode.symlink ab tgt) →
        List.lookup q host = some (FNode.symlink ab tgt) ∨
          ∃ s, (s, FNode.symlink ab tgt) ∈ scratch := by
      intro hc
      unfold copyTreeStep at hc
      by_cases hmiss : ((List.lookup m.relContainerPath scratch).isNone &&
          (scratch.filter (fun x =>
            m.relContainerPath.isPrefixOf x.1 &&
              decide (x.1 ≠ m.relContainerPath))).isEmpty) = true
      · rw [if_pos hmiss] at hc
        exact Or.inl (hdel _ hc)
      · rw [if_neg hmiss] at hc
        have htree : List.lookup q (copyTreeModel scratch m.relContainerPath
            (deleteNonIgnorePaths host m.hostPath) m.hostPath) =
            some (FNode.symlink ab tgt) →
            List.lookup q host = some (FNode.symlink ab tgt) ∨
              ∃ s, (s, FNode.symlink ab tgt) ∈ scratch := by
          intro ht
          unfold copyTreeModel at ht
          rw [lookup_foldl_fsSet] at ht
          cases hfind : ((scratch.filter (fun x =>
              m.relContainerPath.isPrefixOf x.1 &&
                decide (x.1 ≠ m.relContainerPath))).reverse.find?
              (fun x => (m.hostPath ++ x.1.drop m.relContainerPath.length) ==
                q)) with
          | some x =>
            have ht2 : some x.2 = some (FNode.symlink ab tgt) := by
              rw [hfind] at ht
              exact ht
            right
            refine ⟨x.1, ?_⟩
            have hx2 : x.2 = FNode.symlink ab tgt := Option.some.inj ht2
            have hxmem := List.mem_reverse.mp
              (List.mem_of_find?_eq_some hfind)
            have hxs := (List.mem_filter.mp hxmem).1
            have hxe : (x.1, x.2) = x := rfl
            rw [← hx2]
            rw [hxe]
            exact hxs
          | none =>
            have ht2 : List.lookup q (fsSet
                (deleteNonIgnorePaths host m.hostPath) m.hostPath
                FNode.dir) = some (FNode.symlink ab tgt) := by
              rw [hfind] at ht
              exact ht
            rw [lookup_fsSet] at ht2
            by_cases hq : q = m.hostPath
            · rw [if_pos hq] at ht2
              exact FNode.noConfusion (Option.some.inj ht2)
            · rw [if_neg hq] at ht2
              exact Or.inl (hdel _ ht2)
        cases hl : List.lookup m.hostPath
            (deleteNonIgnorePaths host m.hostPath) with
        | none =>
          rw [hl] at hc
          exact htree hc
        | some n2 =>
          cases n2 with
          | file c e =>
            rw [hl] at hc
            exact Or.inl (hdel _ hc)
          | symlink ab2 tg2 =>
            rw [hl] at hc
            exact Or.inl (hdel _ hc)
          | dir =>
            rw [hl] at hc
            exact htree hc
    unfold applyMountCopy at h
    cases hsc : List.lookup m.relContainerPath scratch with
    | some n =>
      cases n with
      | file c e =>
        rw [hsc] at h
        unfold copy2Model at h
        cases hl : List.lookup m.hostPath
            (deleteNonIgnorePaths host m.hostPath) with
        | none =>
          rw [hl] at h
          rw [lookup_fsSet] at h
          by_cases hq : q = m.hostPath
          · rw [if_pos hq] at h
            exact FNode.noConfusion (Option.some.inj h)
          · rw [if_neg hq] at h
            exact Or.inl (hdel _ h)
        | some n2 =>
          cases n2 with
          | dir =>
            rw [hl] at h
            rw [lookup_fsSet] at h
            by_cases hq : q = m.hostPath ++ [m.relContainerPath.getLastD ""]
            · rw [if_pos hq] at h
              exact FNode.noConfusion (Option.some.inj h)
            · rw [if_neg hq] at h
              exact Or.inl (hdel _ h)
          | file c2 e2 =>
            rw [hl] at h
            rw [lookup_fsSet] at h
            by_cases hq : q = m.hostPath
            · rw [if_pos hq] at h
              exact FNode.noConfusion (Option.some.inj h)
            · rw [if_neg hq] at h
              exact Or.inl (hdel _ h)
          | symlink ab2 tg2 =>
            rw [hl] at h
            rw [lookup_fsSet] at h
            by_cases hq : q = m.hostPath
            · rw [if_pos hq] at h
              exact FNode.noConfusion (Option.some.inj h)
            · rw [if_neg hq] at h
              exact Or.inl (hdel _ h)
      | dir =>
        rw [hsc] at h
        exact hcopytree h
      | symlink ab2 tg2 =>
        rw [hsc] at h
        exact hcopytree h
    | none =>
      rw [hsc] at h
      exact hcopytree h

theorem applyMounts_symlink_src (scratch : FS) (mounts : List VMount)
    (host : FS) (q : RPath) (ab : Bool) (tgt : List String)
    (h : List.lookup q (applyMounts scratch mounts host).2 =
      some (FNode.symlink ab tgt)) :
    List.lookup q host = some (FNode.symlink ab tgt) ∨
      ∃ s, (s, FNode.symlink ab tgt) ∈ scratch := by
  induction mounts generalizing host with
  | nil => exact Or.inl h
  | cons m rest ih =>
    cases ham : applyMount scratch host m with
    | mk res host1 =>
      cases res with
      | ok u =>
        cases u
        rw [applyMounts_cons_ok scratch m rest host host1 ham] at h
        rcases ih host1 h with hh | hs
        · have h2 : List.lookup q (applyMount scratch host m).2 =
              some (FNode.symlink ab tgt) := by
            rw [ham]
            exact hh
          exact applyMount_symlink_src _ _ _ _ _ _ h2
        · exact Or.inr hs
      | error e =>
        rw [applyMounts_cons_err scratch m rest host host1 e ham] at h
        have h2 : List.lookup q (applyMount scratch host m).2 =
            some (FNode.symlink ab tgt) := by
          rw [ham]
          exact h
        exact applyMount_symlink_src _ _ _ _ _ _ h2

/-- A symlink surviving validate_symlinks_within_dir resolves to a strict
descendant of the scratch root. -/
theorem validate_keeps_resolve (scratch : FS) (p : RPath) (ab : Bool)
    (tgt : List String)
    (h : (p, FNode.symlink ab tgt) ∈ validateSymlinksWithinDir scratch) :
    ∃ r, resolveTarget scratch p ab tgt = some r ∧ r ≠ [] := by
  unfold validateSymlinksWithinDir at h
  have hk0 := List.of_mem_filter h
  have hk : keepSymlink scratch p ab tgt = true := hk0
  unfold keepSymlink at hk
  cases hr : resolveTarget scratch p ab tgt with
  | none =>
    have hk2 : false = true := by
      rw [hr] at hk
      exact hk
    exact Bool.noConfusion hk2
  | some r =>
    have hk2 : (!r.isEmpty) = true := by
      rw [hr] at hk
      exact hk
    refine ⟨r, rfl, ?_⟩
    intro he
    rw [he] at hk2
    simp at hk2

/-- A symlink of the extracted tree whose resolution stays strictly inside
the scratch root survives validation. -/
theorem validate_keeps_mem (scratch : FS) (p : RPath) (ab : Bool)
    (tgt : List String) (r : List String)
    (hmem : (p, FNode.symlink ab tgt) ∈ scratch)
    (hres : resolveTarget scratch p ab tgt = some r) (hr : r ≠ []) :
    (p, FNode.symlink ab tgt) ∈ validateSymlinksWithinDir scratch := by
  have hb : (!r.isEmpty) = true := by
    cases hre : r.isEmpty with
    | true => exact absurd (List.isEmpty_iff.mp hre) hr
    | false => rfl
  refine List.mem_filter.mpr ⟨hmem, ?_⟩
  show keepSymlink scratch p ab tgt = true
  unfold keepSymlink
  rw [hres]
  exact hb

/-- Non-symlink entries pass validation untouched. -/
theorem validate_keeps_lookup_dir (scratch : FS) (k : RPath)
    (hnd : (scratch.map Prod.fst).Nodup)
    (h : List.lookup k scratch = some FNode.dir) :
    List.lookup k (validateSymlinksWithinDir scratch) = some FNode.dir := by
  unfold validateSymlinksWithinDir
  rw [lookup_filter_of_nodup _ _ _ hnd, h]
  rfl

/-- The copytree model places every strict-subtree entry of the scratch side
at the corresponding path below the destination. -/
theorem copyTreeModel_copies (scratchV : FS) (rel : List String) (host1 : FS)
    (hp : RPath) (p : RPath) (n : FNode) (hpne : p ≠ [])
    (hnd : (scratchV.map Prod.fst).Nodup)
    (hmem : (rel ++ p, n) ∈ scratchV) :
    List.lookup (hp ++ p) (copyTreeModel scratchV rel host1 hp) = some n := by
  unfold copyTreeModel
  rw [lookup_foldl_fsSet]
  have hne : rel ++ p ≠ rel := by
    cases p with
    | nil => exact absurd rfl hpne
    | cons c tail => exact append_cons_ne_self rel c tail
  have hsubmem : (rel ++ p, n) ∈ (scratchV.filter (fun x =>
      rel.isPrefixOf x.1 && decide (x.1 ≠ rel))).reverse := by
    rw [List.mem_reverse]
    refine List.mem_filter.mpr ⟨hmem, ?_⟩
    rw [isPrefixOf_self_append]
    simp [hne]
  have hndsub : (((scratchV.filter (fun x =>
      rel.isPrefixOf x.1 && decide (x.1 ≠ rel))).reverse).map Prod.fst).Nodup := by
    rw [List.map_reverse]
    exact List.nodup_reverse.mpr (nodup_keys_filter _ _ hnd)
  have hpk : ∀ x ∈ (scratchV.filter (fun x =>
      rel.isPrefixOf x.1 && decide (x.1 ≠ rel))).reverse,
      (((hp ++ x.1.drop rel.length) == hp ++ p) = true ↔ x.1 = rel ++ p) := by
    intro x hx
    have hxf := List.of_mem_filter (List.mem_reverse.mp hx)
    have hxpre : rel.isPrefixOf x.1 = true := by
      revert hxf
      cases rel.isPrefixOf x.1 <;> simp
    obtain ⟨s, hs⟩ := (isPrefixOf_iff_exists _ _).mp hxpre
    constructor
    · intro hb
      have hb2 := eq_of_beq hb
      rw [hs, List.drop_left] at hb2
      have hsp : s = p := List.append_cancel_left hb2
      rw [hs, hsp]
    · intro hx1
      rw [hx1, List.drop_left]
      simp
  have hfind := find?_key_unique _ _ _ _ hndsub hsubmem hpk
  rw [hfind]

/-- If the scratch entry at the relative container path is a directory and
the copy step succeeds, every strict-subtree scratch entry lands below the
mount host path. -/
theorem applyMountCopy_copies_entry (scratchV host1 : FS) (m : VMount)
    (p : RPath) (n : FNode)
    (hdir : List.lookup m.relContainerPath scratchV = some FNode.dir)
    (hpne : p ≠ [])
    (hnd : (scratchV.map Prod.fst).Nodup)
    (hmem : (m.relContainerPath ++ p, n) ∈ scratchV)
    (hok : (applyMountCopy scratchV host1 m).1 = .ok ()) :
    List.lookup (m.hostPath ++ p) (applyMountCopy scratchV host1 m).2 =
      some n := by
  have hcopy : applyMountCopy scratchV host1 m =
      copyTreeStep scratchV host1 m := by
    unfold applyMountCopy
    rw [hdir]
  rw [hcopy] at hok ⊢
  unfold copyTreeStep at hok ⊢
  have hcond : ((List.lookup m.relContainerPath scratchV).isNone &&
      (scratchV.filter (fun x =>
        m.relContainerPath.isPrefixOf x.1 &&
          decide (x.1 ≠ m.relContainerPath))).isEmpty) = false := by
    rw [hdir]
    rfl
  rw [hcond] at hok ⊢
  simp only [Bool.false_eq_true, if_false] at hok ⊢
  cases hl : List.lookup m.hostPath host1 with
  | some n2 =>
    cases n2 with
    | file c e =>
      rw [hl] at hok
      exact Except.noConfusion hok
    | symlink ab tg =>
      rw [hl] at hok
      exact Except.noConfusion hok
    | dir =>
      show List.lookup (m.hostPath ++ p)
        (copyTreeModel scratchV m.relContainerPath host1 m.hostPath) = some n
      exact copyTreeModel_copies _ _ _ _ _ _ hpne hnd hmem
  | none =>
    show List.lookup (m.hostPath ++ p)
      (copyTreeModel scratchV m.relContainerPath host1 m.hostPath) = some n
    exact copyTreeModel_copies _ _ _ _ _ _ hpne hnd hmem

/-- The pipeline on a successfully extracted archive reduces to the mount
loop over the validated scratch tree. -/
theorem untar_ok_case (members : List (RPath × FNode)) (mounts : List VMount)
    (host : FS) (scratch : FS) (hex : extractTar members = .ok scratch) :
    untarMountsFromStream false members mounts host =
      untarWrap (applyMounts (validateSymlinksWithinDir scratch) mounts host) := by
  unfold untarMountsFromStream
  rw [if_neg (fun hc => Bool.noConfusion hc)]
  rw [hex]

theorem untarWrap_snd (A : Except String Unit × FS) : (untarWrap A).2 = A.2 := by
  rcases A with ⟨res, hst⟩
  cases res with
  | ok u => cases u; rfl
  | error e => rfl

theorem untarWrap_fst_ok (A : Except String Unit × FS)
    (h : (untarWrap A).1 = .ok ()) : A.1 = .ok () := by
  rcases A with ⟨res, hst⟩
  cases res with
  | ok u => cases u; rfl
  | error e => exact Except.noConfusion h

theorem splitOnce_append_left (c : Char) (l1 l2 : List Char) (h : c ∉ l1) :
    splitOnceList c (l1 ++ c :: l2) = some (l1, l2) := by
  induction l1 with
  | nil => simp [splitOnceList]
  | cons x xs ih =>
    have hx : ¬(x = c) := fun he => h (by simp [he])
    have hxs : c ∉ xs := fun hm => h (List.mem_cons_of_mem _ hm)
    simp [splitOnceList, hx, ih hxs]

theorem splitOnce_none (c : Char) (l : List Char) (h : c ∉ l) :
    splitOnceList c l = none := by
  induction l with
  | nil => rfl
  | cons x xs ih =>
    have hx : ¬(x = c) := fun he => h (by simp [he])
    have hxs : c ∉ xs := fun hm => h (List.mem_cons_of_mem _ hm)
    simp [splitOnceList, hx, ih hxs]

theorem charContains_true (l : List Char) (c : Char) (h : c ∈ l) :
    l.contains c = true :=
  List.elem_iff.mpr h

theorem charContains_false (l : List Char) (c : Char) (h : c ∉ l) :
    l.contains c = false := by
  cases hx : l.contains c with
  | false => rfl
  | true => exact absurd (List.elem_iff.mp hx) h

theorem processReturnInfo_some (args : List String) (d : JVal) (err tb : String) :
    processReturnInfo args ⟨d, some err, tb⟩ =
      .error ⟨containerErrorMessage args (errorPieces err).1 (errorPieces err).2,
        pyUnicodeEscape tb⟩ := rfl

/-- Claim C8, counterexample to the verbatim-traceback part: a record whose
traceback holds a backslash followed by the letter n is attached with that
pair decoded to a newline by the raw_unicode_escape/unicode_escape round
trip, so it is not preserved verbatim. -/
theorem process_return_info_traceback_not_verbatim :
    processReturnInfo ["lint"]
        ⟨JVal.null, some "ValueError(bad input)", "x\\ny"⟩ =
      .error ⟨containerErrorMessage ["lint"] "ValueError" "bad input",
        "x\ny"⟩ ∧
    ("x\ny" : String) ≠ "x\\ny" := by
  refine ⟨rfl, by decide⟩

/-- Claim C8, amended: with no error key the data field is returned; an error
of the shape Kind(message) yields the stripped kind and the message between
the first opening and last closing parenthesis; an error of the shape
Kind: message (without a parenthesis pair) yields the stripped kind and the
stripped message; anything else yields the explicit fallback marker with the
error text unchanged; in every error case the attached traceback is the
record traceback after the Python escape round trip (encode
raw_unicode_escape, decode unicode_escape), which equals the original text
exactly when it contains no backslash. -/
theorem process_return_info_spec :
    ∀ (args : List String) (d : JVal) (tb : String),
      (processReturnInfo args ⟨d, none, tb⟩ = .ok d) ∧
      (∀ kind msg : String, '(' ∉ kind.toList →
        processReturnInfo args ⟨d, some (kind ++ "(" ++ msg ++ ")"), tb⟩ =
          .error ⟨containerErrorMessage args
              (pyUnicodeEscape (pyStrip kind)) (pyUnicodeEscape msg),
            pyUnicodeEscape tb⟩) ∧
      (∀ kind msg : String, ':' ∉ kind.toList →
        ('(' ∉ (kind ++ ":" ++ msg).toList ∨
          ')' ∉ (kind ++ ":" ++ msg).toList) →
        processReturnInfo args ⟨d, some (kind ++ ":" ++ msg), tb⟩ =
          .error ⟨containerErrorMessage args
              (pyUnicodeEscape (pyStrip kind)) (pyUnicodeEscape (pyStrip msg)),
            pyUnicodeEscape tb⟩) ∧
      (∀ err : String, ('(' ∉ err.toList ∨ ')' ∉ err.toList) →
        ':' ∉ err.toList →
        processReturnInfo args ⟨d, some err, tb⟩ =
          .error ⟨containerErrorMessage args "<could not be parsed" err,
            pyUnicodeEscape tb⟩) := by
  intro args d tb
  refine ⟨rfl, ?_, ?_, ?_⟩
  · intro kind msg h
    have hdata : (kind ++ "(" ++ msg ++ ")").toList =
        kind.toList ++ '(' :: (msg.toList ++ [')']) := by
      simp [String.toList, String.data_append]
    have hc1 : (kind ++ "(" ++ msg ++ ")").toList.contains '(' = true := by
      apply charContains_true
      rw [hdata]
      simp
    have hc2 : (kind ++ "(" ++ msg ++ ")").toList.contains ')' = true := by
      apply charContains_true
      rw [hdata]
      simp
    have hbf : pyBeforeFirst (kind ++ "(" ++ msg ++ ")") '(' = kind := by
      unfold pyBeforeFirst
      rw [hdata, splitOnce_append_left _ _ _ h]
      cases kind with
      | mk l => rfl
    have haf : pyAfterFirst (kind ++ "(" ++ msg ++ ")") '(' = msg ++ ")" := by
      unfold pyAfterFirst
      rw [hdata, splitOnce_append_left _ _ _ h]
      cases msg with
      | mk l => rfl
    have hbl : pyBeforeLast (msg ++ ")") ')' = msg := by
      unfold pyBeforeLast
      have hrev : (msg ++ ")").toList.reverse = ')' :: msg.toList.reverse := by
        simp [String.toList, String.data_append]
      rw [hrev]
      have hsp : splitOnceList ')' (')' :: msg.toList.reverse) =
          some ([], msg.toList.reverse) := by
        simp [splitOnceList]
      rw [hsp]
      cases msg with
      | mk l => simp [String.toList]
    have hep : errorPieces (kind ++ "(" ++ msg ++ ")") =
        (pyUnicodeEscape (pyStrip kind), pyUnicodeEscape msg) := by
      unfold errorPieces
      rw [hc1, hc2, Bool.and_self, if_pos rfl, hbf, haf, hbl]
    rw [processReturnInfo_some, hep]
  · intro kind msg hk hp
    have hdata : (kind ++ ":" ++ msg).toList =
        kind.toList ++ ':' :: msg.toList := by
      simp [String.toList, String.data_append]
    have hpar : ((kind ++ ":" ++ msg).toList.contains '(' &&
        (kind ++ ":" ++ msg).toList.contains ')') = false := by
      cases hp with
      | inl hh => rw [charContains_false _ _ hh, Bool.false_and]
      | inr hh => rw [charContains_false _ _ hh, Bool.and_false]
    have hc : (kind ++ ":" ++ msg).toList.contains ':' = true := by
      apply charContains_true
      rw [hdata]
      simp
    have hbf : pyBeforeFirst (kind ++ ":" ++ msg) ':' = kind := by
      unfold pyBeforeFirst
      rw [hdata, splitOnce_append_left _ _ _ hk]
      cases kind with
      | mk l => rfl
    have haf : pyAfterFirst (kind ++ ":" ++ msg) ':' = msg := by
      unfold pyAfterFirst
      rw [hdata, splitOnce_append_left _ _ _ hk]
      cases msg with
      | mk l => rfl
    have hep : errorPieces (kind ++ ":" ++ msg) =
        (pyUnicodeEscape (pyStrip kind), pyUnicodeEscape (pyStrip msg)) := by
      unfold errorPieces
      rw [hpar, if_neg (by decide), hc, if_pos rfl, hbf, haf]
    rw [processReturnInfo_some, hep]
  · intro err hp hcol
    have hpar : (err.toList.contains '(' && err.toList.contains ')') = false := by
      cases hp with
      | inl hh => rw [charContains_false _ _ hh, Bool.false_and]
      | inr hh => rw [charContains_false _ _ hh, Bool.and_false]
    have hc : err.toList.contains ':' = false := charContains_false _ _ hcol
    have hep : errorPieces err = ("<could not be parsed", err) := by
      unfold errorPieces
      rw [hpar, if_neg (by decide), hc, if_neg (by decide)]
    rw [processReturnInfo_some, hep]

/-- Witness for the amended claim C8 at the concrete scenario of the spec: a
record with no error key returns its data, and an error ValueError(bad input)
is split into kind ValueError and message bad input. -/
theorem process_return_info_spec_witness :
    processReturnInfo ["rerender"]
        ⟨JVal.obj [("ok", JVal.bool true)], none, "T"⟩ =
      .ok (JVal.obj [("ok", JVal.bool true)]) ∧
    processReturnInfo ["rerender"]
        ⟨JVal.null, some ("ValueError" ++ "(" ++ "bad input" ++ ")"), "T"⟩ =
      .error ⟨containerErrorMessage ["rerender"]
          (pyUnicodeEscape (pyStrip "ValueError")) (pyUnicodeEscape "bad input"),
        pyUnicodeEscape "T"⟩ :=
  ⟨(process_return_info_spec ["rerender"] (JVal.obj [("ok", JVal.bool true)])
      "T").1,
    (process_return_info_spec ["rerender"] JVal.null "T").2.1 "ValueError"
      "bad input" (by decide)⟩

theorem getLastD_mem {α : Type} : ∀ (a : α) (as : List α) (d : α),
    (a :: as).getLastD d ∈ a :: as := by
  intro a as
  induction as generalizing a with
  | nil =>
    intro d
    rw [List.getLastD_cons, List.getLastD_nil]
    exact List.mem_cons_self _ _
  | cons b bs ih =>
    intro d
    rw [List.getLastD_cons]
    exact List.mem_cons_of_mem a (ih b a)

theorem prefix_overlap_of_common_extension (a b q : RPath)
    (ha : a.isPrefixOf q = true) (hb : b.isPrefixOf q = true) :
    pathsOverlap a b = true := by
  obtain ⟨t, ht⟩ := (isPrefixOf_iff_exists _ _).mp ha
  subst ht
  unfold pathsOverlap
  rcases prefix_append_cases _ _ _ hb with h1 | h2
  · rw [h1, Bool.or_true]
  · rw [h2, Bool.true_or]

theorem hosts_disjoint_avoid (mlist : List VMount) (m : VMount) (q : RPath)
    (hall : mlist.all (fun m2 => !pathsOverlap m.hostPath m2.hostPath) = true)
    (hpre : m.hostPath.isPrefixOf q = true) :
    ∀ m2 ∈ mlist, m2.hostPath.isPrefixOf q = false := by
  intro m2 hm2
  have hov := List.all_eq_true.mp hall m2 hm2
  cases hp2 : m2.hostPath.isPrefixOf q with
  | false => rfl
  | true =>
    rw [prefix_overlap_of_common_extension _ _ _ hpre hp2] at hov
    exact Bool.noConfusion hov

theorem lookup_copy2Model_not_written (host1 : FS) (hp : RPath)
    (srcName : String) (n : FNode) (q : RPath) (hq : q ≠ hp)
    (hqs : q ≠ hp ++ [srcName]) :
    List.lookup q (copy2Model host1 hp srcName n) = List.lookup q host1 := by
  unfold copy2Model
  cases hl : List.lookup hp host1 with
  | none =>
    show List.lookup q (fsSet host1 hp n) = List.lookup q host1
    rw [lookup_fsSet, if_neg hq]
  | some v =>
    cases v with
    | dir =>
      show List.lookup q (fsSet host1 (hp ++ [srcName]) n) = List.lookup q host1
      rw [lookup_fsSet, if_neg hqs]
    | file c e =>
      show List.lookup q (fsSet host1 hp n) = List.lookup q host1
      rw [lookup_fsSet, if_neg hq]
    | symlink ab tgt =>
      show List.lookup q (fsSet host1 hp n) = List.lookup q host1
      rw [lookup_fsSet, if_neg hq]

theorem lookup_copyTreeModel_not_written (scratchV : FS) (rel : List String)
    (host1 : FS) (hp : RPath) (q : RPath) (hq : q ≠ hp)
    (hk : ∀ k, (∃ n, (k, n) ∈ scratchV) → rel.isPrefixOf k = true → k ≠ rel →
      q ≠ hp ++ k.drop rel.length) :
    List.lookup q (copyTreeModel scratchV rel host1 hp) =
      List.lookup q host1 := by
  have he : copyTreeModel scratchV rel host1 hp =
      (scratchV.filter (fun m => rel.isPrefixOf m.1 && decide (m.1 ≠ rel))).foldl
        (fun h m => fsSet h (hp ++ m.1.drop rel.length) m.2)
        (fsSet host1 hp FNode.dir) := rfl
  rw [he, lookup_foldl_fsSet (fun m => hp ++ m.1.drop rel.length)]
  have hfind : ((scratchV.filter (fun m =>
      rel.isPrefixOf m.1 && decide (m.1 ≠ rel))).reverse.find?
        (fun m => hp ++ m.1.drop rel.length == q)) = none := by
    rw [List.find?_eq_none]
    intro x hx
    rw [List.mem_reverse] at hx
    have hxf := List.of_mem_filter hx
    have hxm := List.mem_of_mem_filter hx
    have hx1 : rel.isPrefixOf x.1 = true :=
      ((Bool.and_eq_true _ _).mp hxf).1
    have hx2 : x.1 ≠ rel :=
      of_decide_eq_true ((Bool.and_eq_true _ _).mp hxf).2
    have hne := hk x.1 ⟨x.2, hxm⟩ hx1 hx2
    intro hb
    exact hne (LawfulBEq.eq_of_beq hb).symm
  rw [hfind, lookup_fsSet, if_neg hq]

theorem lookup_copyTreeStep_not_written (scratchV host1 : FS) (m : VMount)
    (q : RPath) (hq : q ≠ m.hostPath)
    (hk : ∀ k, (∃ n, (k, n) ∈ scratchV) →
      m.relContainerPath.isPrefixOf k = true → k ≠ m.relContainerPath →
      q ≠ m.hostPath ++ k.drop m.relContainerPath.length) :
    List.lookup q (copyTreeStep scratchV host1 m).2 = List.lookup q host1 := by
  unfold copyTreeStep
  by_cases hmiss : ((List.lookup m.relContainerPath scratchV).isNone &&
      (scratchV.filter (fun x => m.relContainerPath.isPrefixOf x.1 &&
        decide (x.1 ≠ m.relContainerPath))).isEmpty) = true
  · rw [if_pos hmiss]
  · rw [if_neg hmiss]
    cases hl : List.lookup m.hostPath host1 with
    | none =>
      show List.lookup q
        (copyTreeModel scratchV m.relContainerPath host1 m.hostPath) =
        List.lookup q host1
      exact lookup_copyTreeModel_not_written _ _ _ _ _ hq hk
    | some v =>
      cases v with
      | dir =>
        show List.lookup q
          (copyTreeModel scratchV m.relContainerPath host1 m.hostPath) =
          List.lookup q host1
        exact lookup_copyTreeModel_not_written _ _ _ _ _ hq hk
      | file c e => rfl
      | symlink ab tgt => rfl

theorem lookup_applyMountCopy_not_written (scratchV host1 : FS) (m : VMount)
    (q : RPath) (hq : q ≠ m.hostPath)
    (hqs : q ≠ m.hostPath ++ [m.relContainerPath.getLastD ""])
    (hk : ∀ k, (∃ n, (k, n) ∈ scratchV) →
      m.relContainerPath.isPrefixOf k = true → k ≠ m.relContainerPath →
      q ≠ m.hostPath ++ k.drop m.relContainerPath.length) :
    List.lookup q (applyMountCopy scratchV host1 m).2 =
      List.lookup q host1 := by
  unfold applyMountCopy
  cases hl : List.lookup m.relContainerPath scratchV with
  | none =>
    show List.lookup q (copyTreeStep scratchV host1 m).2 = List.lookup q host1
    exact lookup_copyTreeStep_not_written _ _ _ _ hq hk
  | some v =>
    cases v with
    | file c e =>
      show List.lookup q (copy2Model host1 m.hostPath
        (m.relContainerPath.getLastD "") (FNode.file c e)) = List.lookup q host1
      exact lookup_copy2Model_not_written _ _ _ _ _ hq hqs
    | dir =>
      show List.lookup q (copyTreeStep scratchV host1 m).2 = List.lookup q host1
      exact lookup_copyTreeStep_not_written _ _ _ _ hq hk
    | symlink ab tgt =>
      show List.lookup q (copyTreeStep scratchV host1 m).2 = List.lookup q host1
      exact lookup_copyTreeStep_not_written _ _ _ _ hq hk

theorem scratch_key_no_ignored_tail (k rel : RPath) (c : String) (s : RPath)
    (hrelne : rel ≠ []) (hpre : rel.isPrefixOf k = true)
    (hdrop : k.drop rel.length = c :: s)
    (hex : tarExcluded k = false) :
    IGNORE_PATHS.contains c = false ∧
      ∀ x ∈ s, IGNORE_PATHS.contains x = false := by
  obtain ⟨t, hk⟩ := (isPrefixOf_iff_exists _ _).mp hpre
  subst hk
  rw [List.drop_left] at hdrop
  subst hdrop
  rw [tarExcluded_false_iff] at hex
  cases rel with
  | nil => exact absurd rfl hrelne
  | cons a as =>
    have hd1 : ((a :: as) ++ c :: s).drop 1 = as ++ c :: s := rfl
    rw [hd1] at hex
    constructor
    · exact hex c (List.mem_append_right _ (List.mem_cons_self _ _))
    · intro x hx
      exact hex x (List.mem_append_right _ (List.mem_cons_of_mem _ hx))

/-- Per-mount preservation of the ignored side-channel directly below the
mount host path: the deletion step keeps it and the copy step never writes
into it, since no non-excluded scratch key reaches it. -/
theorem applyMount_preserves_ignored_head (scratchV host : FS) (m : VMount)
    (c : String) (s : RPath)
    (hrel : mountRelOk m = true)
    (hc : IGNORE_PATHS.contains c = true)
    (hkeys : ∀ k ∈ scratchV, tarExcluded k.1 = false) :
    List.lookup (m.hostPath ++ c :: s) (applyMount scratchV host m).2 =
      List.lookup (m.hostPath ++ c :: s) host := by
  obtain ⟨hrelne, hrelcl⟩ := (Bool.and_eq_true _ _).mp hrel
  have hrne : m.relContainerPath ≠ [] := by
    intro he
    rw [he] at hrelne
    exact Bool.noConfusion hrelne
  unfold applyMount
  by_cases hro : m.readOnly = true
  · rw [if_pos hro]
  · rw [if_neg hro]
    have hq : m.hostPath ++ c :: s ≠ m.hostPath := append_cons_ne_self _ _ _
    have hqs : m.hostPath ++ c :: s ≠
        m.hostPath ++ [m.relContainerPath.getLastD ""] := by
      intro he
      have h2 : (c :: s : RPath) = [m.relContainerPath.getLastD ""] :=
        List.append_cancel_left he
      have hcsrc : c = m.relContainerPath.getLastD "" :=
        (List.cons.inj h2).1
      cases hrc : m.relContainerPath with
      | nil => exact hrne hrc
      | cons a as =>
        have hmem := getLastD_mem a as ""
        rw [← hrc] at hmem
        have hni := List.all_eq_true.mp hrelcl _ hmem
        rw [hrc] at hni
        rw [← hrc, ← hcsrc] at hni
        rw [hc] at hni
        exact Bool.noConfusion hni
    have hk : ∀ k, (∃ n, (k, n) ∈ scratchV) →
        m.relContainerPath.isPrefixOf k = true → k ≠ m.relContainerPath →
        m.hostPath ++ c :: s ≠ m.hostPath ++ k.drop m.relContainerPath.length := by
      intro k hkm hkp hkne he
      have hdrop : k.drop m.relContainerPath.length = c :: s :=
        (List.append_cancel_left he).symm
      obtain ⟨n, hn⟩ := hkm
      have hexk := hkeys (k, n) hn
      have hfacts := scratch_key_no_ignored_tail k m.relContainerPath c s
        hrne hkp hdrop hexk
      rw [hc] at hfacts
      exact Bool.noConfusion hfacts.1
    rw [lookup_applyMountCopy_not_written _ _ _ _ hq hqs hk]
    rw [lookup_deleteNonIgnorePaths,
      deletedBelow_false_of_ignored_head _ _ _ (List.elem_iff.mp hc)]
    rw [if_neg (fun hcc => Bool.noConfusion hcc)]

/-- Per-mount destruction of nested ignored paths: a strict descendant of a
read-write mount host path whose first component is not ignored is removed by
the deletion step, and with an ignored component somewhere deeper no scratch
key can re-create it. -/
theorem applyMount_clears_nested_ignored (scratchV host : FS) (m : VMount)
    (d : String) (s : RPath)
    (hro : m.readOnly = false)
    (hrel : mountRelOk m = true)
    (hd : IGNORE_PATHS.contains d = false)
    (hs : noIgnoredComp s = false)
    (hkeys : ∀ k ∈ scratchV, tarExcluded k.1 = false) :
    List.lookup (m.hostPath ++ d :: s) (applyMount scratchV host m).2 =
      none := by
  obtain ⟨hrelne, hrelcl⟩ := (Bool.and_eq_true _ _).mp hrel
  have hrne : m.relContainerPath ≠ [] := by
    intro he
    rw [he] at hrelne
    exact Bool.noConfusion hrelne
  have hsne : s ≠ [] := by
    intro he
    rw [he] at hs
    exact Bool.noConfusion hs
  unfold applyMount
  rw [hro, if_neg (fun hcc => Bool.noConfusion hcc)]
  have hq : m.hostPath ++ d :: s ≠ m.hostPath := append_cons_ne_self _ _ _
  have hqs : m.hostPath ++ d :: s ≠
      m.hostPath ++ [m.relContainerPath.getLastD ""] := by
    intro he
    have h2 : (d :: s : RPath) = [m.relContainerPath.getLastD ""] :=
      List.append_cancel_left he
    exact hsne (List.cons.inj h2).2
  have hk : ∀ k, (∃ n, (k, n) ∈ scratchV) →
      m.relContainerPath.isPrefixOf k = true → k ≠ m.relContainerPath →
      m.hostPath ++ d :: s ≠ m.hostPath ++ k.drop m.relContainerPath.length := by
    intro k hkm hkp hkne he
    have hdrop : k.drop m.relContainerPath.length = d :: s :=
      (List.append_cancel_left he).symm
    obtain ⟨n, hn⟩ := hkm
    have hexk := hkeys (k, n) hn
    have hfacts := scratch_key_no_ignored_tail k m.relContainerPath d s
      hrne hkp hdrop hexk
    obtain ⟨x, hxs, hxi⟩ : ∃ x ∈ s, IGNORE_PATHS.contains x = true := by
      by_contra hno
      push_neg at hno
      have hall : noIgnoredComp s = true := by
        rw [noIgnoredComp, List.all_eq_true]
        intro x hx
        cases hxc : IGNORE_PATHS.contains x with
        | false => rfl
        | true => exact absurd hxc (hno x hx)
      rw [hall] at hs
      exact Bool.noConfusion hs
    rw [hfacts.2 x hxs] at hxi
    exact Bool.noConfusion hxi
  rw [lookup_applyMountCopy_not_written _ _ _ _ hq hqs hk]
  rw [lookup_deleteNonIgnorePaths, deletedBelow_true_of_clear_head _ _ _ hd]
  rw [if_pos rfl]

/-- Claim C1: symlink containment of the inbound unpack.  Part 1: every
symlink surviving validate_symlinks_within_dir resolves to a nonempty
relative path, i.e. strictly inside the scratch root, so every symlink whose
resolution lies outside (or fails, as for absolute targets) is deleted before
any copy.  Part 2: every symlink found on a host path after
untar_mounts_from_stream either was already there before the call or is a
scratch symlink that survived validation and hence resolves strictly inside
the scratch root — an outside-resolving symlink is never materialized on any
host path.  Part 3: a relative symlink of the extracted archive below a
read-write mount whose resolution stays strictly inside the scratch root is
preserved and copied onto the corresponding host path, also when its target
is an ignored name such as .git. -/
theorem untar_symlink_containment :
    (∀ (scratch : FS) (p : RPath) (ab : Bool) (tgt : List String),
      (p, FNode.symlink ab tgt) ∈ validateSymlinksWithinDir scratch →
      ∃ r, resolveTarget scratch p ab tgt = some r ∧ r ≠ []) ∧
    (∀ (t : Bool) (members : List (RPath × FNode)) (mounts : List VMount)
      (host : FS) (q : RPath) (ab : Bool) (tgt : List String),
      List.lookup q (untarMountsFromStream t members mounts host).2 =
        some (FNode.symlink ab tgt) →
      List.lookup q host = some (FNode.symlink ab tgt) ∨
        ∃ scratch s, extractTar members = .ok scratch ∧
          (s, FNode.symlink ab tgt) ∈ scratch ∧
          ∃ r, resolveTarget scratch s ab tgt = some r ∧ r ≠ []) ∧
    (∀ (members : List (RPath × FNode)) (mounts : List VMount) (host : FS)
      (scratch : FS) (m : VMount) (p : RPath) (tgt : List String)
      (r : List String),
      extractTar members = .ok scratch →
      pairwiseHostsDisjoint mounts = true →
      m ∈ mounts →
      m.readOnly = false →
      List.lookup m.relContainerPath scratch = some FNode.dir →
      p ≠ [] →
      (m.relContainerPath ++ p, FNode.symlink false tgt) ∈ scratch →
      resolveTarget scratch (m.relContainerPath ++ p) false tgt = some r →
      r ≠ [] →
      (untarMountsFromStream false members mounts host).1 = .ok () →
      List.lookup (m.hostPath ++ p)
          (untarMountsFromStream false members mounts host).2 =
        some (FNode.symlink false tgt)) := by
  refine ⟨validate_keeps_resolve, ?_, ?_⟩
  · intro t members mounts host q ab tgt h
    cases t with
    | true => exact Or.inl h
    | false =>
      cases hex : extractTar members with
      | error e =>
        left
        have heq : untarMountsFromStream false members mounts host =
            (.error (.tarFailed e), host) := by
          unfold untarMountsFromStream
          rw [if_neg (fun hc => Bool.noConfusion hc), hex]
        rw [heq] at h
        exact h
      | ok scratch =>
        rw [untar_ok_case members mounts host scratch hex, untarWrap_snd] at h
        rcases applyMounts_symlink_src _ _ _ _ _ _ h with hh | ⟨s, hs⟩
        · exact Or.inl hh
        · right
          have hs2 : (s, FNode.symlink ab tgt) ∈ scratch := by
            have hs3 := hs
            unfold validateSymlinksWithinDir at hs3
            exact List.mem_of_mem_filter hs3
          exact ⟨scratch, s, rfl, hs2, validate_keeps_resolve _ _ _ _ hs⟩
  · intro members mounts host scratch m p tgt r hex hdisj hmem hro hdir hpne
      hsmem hres hrne hok
    have hnd := extractTar_keys_nodup members scratch hex
    have hmemV := validate_keeps_mem scratch _ false tgt r hsmem hres hrne
    have hdirV := validate_keeps_lookup_dir scratch _ hnd hdir
    have hndV : ((validateSymlinksWithinDir scratch).map Prod.fst).Nodup := by
      unfold validateSymlinksWithinDir
      exact nodup_keys_filter _ _ hnd
    rw [untar_ok_case members mounts host scratch hex] at hok ⊢
    rw [untarWrap_snd]
    have hok2 := untarWrap_fst_ok _ hok
    clear hok
    revert hdisj hmem hok2
    induction mounts generalizing host with
    | nil =>
      intro _ hmem _
      exact absurd hmem (List.not_mem_nil m)
    | cons m0 rest ih =>
      intro hdisj hmem hok2
      have hdj := hdisj
      unfold pairwiseHostsDisjoint at hdj
      have hdj1 : rest.all (fun m2 => !pathsOverlap m0.hostPath m2.hostPath) =
          true := ((Bool.and_eq_true _ _).mp hdj).1
      have hdj2 : pairwiseHostsDisjoint rest = true :=
        ((Bool.and_eq_true _ _).mp hdj).2
      cases ham : applyMount (validateSymlinksWithinDir scratch) host m0 with
      | mk res host1 =>
        cases res with
        | error e =>
          rw [applyMounts_cons_err _ _ _ _ _ _ ham] at hok2
          exact Except.noConfusion hok2
        | ok u =>
          cases u
          rw [applyMounts_cons_ok _ _ _ _ _ ham] at hok2 ⊢
          by_cases hm0 : m = m0
          · rw [← hm0] at ham hdj1
            have ham2 : applyMountCopy (validateSymlinksWithinDir scratch)
                (deleteNonIgnorePaths host m.hostPath) m = (.ok (), host1) := by
              have ham3 := ham
              unfold applyMount at ham3
              rw [hro] at ham3
              rw [if_neg (fun hc => Bool.noConfusion hc)] at ham3
              exact ham3
            have hokc : (applyMountCopy (validateSymlinksWithinDir scratch)
                (deleteNonIgnorePaths host m.hostPath) m).1 = .ok () := by
              rw [ham2]
            have hcp := applyMountCopy_copies_entry
              (validateSymlinksWithinDir scratch)
              (deleteNonIgnorePaths host m.hostPath) m p
              (FNode.symlink false tgt) hdirV hpne hndV hmemV hokc
            rw [ham2] at hcp
            have hml : List.lookup (m.hostPath ++ p) host1 =
                some (FNode.symlink false tgt) := hcp
            have hall : ∀ m2 ∈ rest,
                m2.hostPath.isPrefixOf (m.hostPath ++ p) = false := by
              intro m2 hm2
              have hov := List.all_eq_true.mp hdj1 m2 hm2
              have hov2 : pathsOverlap m.hostPath m2.hostPath = false := by
                cases hpo : pathsOverlap m.hostPath m2.hostPath with
                | false => rfl
                | true =>
                  rw [hpo] at hov
                  exact Bool.noConfusion hov
              cases hpre : m2.hostPath.isPrefixOf (m.hostPath ++ p) with
              | false => rfl
              | true =>
                exfalso
                have hpo : pathsOverlap m.hostPath m2.hostPath = true := by
                  unfold pathsOverlap
                  rcases prefix_append_cases _ _ _ hpre with h1 | h2
                  · rw [h1, Bool.or_true]
                  · rw [h2, Bool.true_or]
                rw [hpo] at hov2
                exact Bool.noConfusion hov2
            rw [applyMounts_lookup_after _ rest host1 _ hall]
            exact hml
          · have hmem2 : m ∈ rest := by
              rcases List.mem_cons.mp hmem with he | hr2
              · exact absurd he hm0
              · exact hr2
            exact ih host1 hdj2 hmem2 hok2

/-- Claim C7: a timeout of the extraction step makes untar_mounts_from_stream
surface the timeout error with every host path exactly as before the call
(part 1); and no host path is touched before the full scratch extraction has
succeeded, so a tar failure equally returns the host unchanged (part 2). -/
theorem untar_timeout_leaves_host_untouched :
    (∀ (members : List (RPath × FNode)) (mounts : List VMount) (host : FS),
      untarMountsFromStream true members mounts host =
        (.error .timeout, host)) ∧
    (∀ (t : Bool) (members : List (RPath × FNode)) (mounts : List VMount)
      (host : FS) (e : String),
      extractTar members = .error e →
      untarMountsFromStream t members mounts host =
          (.error (.tarFailed e), host) ∨
        untarMountsFromStream t members mounts host =
          (.error .timeout, host)) := by
  constructor
  · intro members mounts host
    rfl
  · intro t members mounts host e hex
    cases t with
    | true => exact Or.inr rfl
    | false =>
      left
      unfold untarMountsFromStream
      rw [if_neg (fun hc => Bool.noConfusion hc), hex]

/-- Witness for C7: a timed-out unpack and a failed extraction (member with
an empty cleaned name) both leave the concrete host filesystem unchanged. -/
theorem untar_timeout_leaves_host_untouched_witness :
    untarMountsFromStream true
        [((["w"] : RPath), FNode.dir)] [⟨["h"], ["w"], false⟩]
        [((["h"] : RPath), FNode.dir), (["h", "f"], FNode.file [1] false)] =
      (.error .timeout,
        [((["h"] : RPath), FNode.dir), (["h", "f"], FNode.file [1] false)]) ∧
    untarMountsFromStream false
        [((["."] : RPath), FNode.dir)] [⟨["h"], ["w"], false⟩]
        [((["h"] : RPath), FNode.dir), (["h", "f"], FNode.file [1] false)] =
      (.error (.tarFailed
          "tar: member name is empty or contains a dot-dot component"),
        [((["h"] : RPath), FNode.dir), (["h", "f"], FNode.file [1] false)]) :=
  ⟨untar_timeout_leaves_host_untouched.1 [((["w"] : RPath), FNode.dir)]
      [⟨["h"], ["w"], false⟩]
      [((["h"] : RPath), FNode.dir), (["h", "f"], FNode.file [1] false)],
    Or.resolve_right
      (untar_timeout_leaves_host_untouched.2 false
        [((["."] : RPath), FNode.dir)] [⟨["h"], ["w"], false⟩]
        [((["h"] : RPath), FNode.dir), (["h", "f"], FNode.file [1] false)]
        "tar: member name is empty or contains a dot-dot component" rfl)
      (fun hc =>
        UntarErr.noConfusion (Except.error.inj (congrArg Prod.fst hc)))⟩

/-- Witness for C1 at a concrete archive: the writable mount w contains a
relative symlink targeting the ignored name .git; it resolves inside the
scratch root to w/.git and is materialized at the mount host path. -/
theorem untar_symlink_containment_witness :
    resolveTarget
        [((["w"] : RPath), FNode.dir),
          (["w", "link"], FNode.symlink false [".git"])]
        ["w", "link"] false [".git"] = some ["w", ".git"] ∧
    List.lookup (["h", "link"] : RPath)
        (untarMountsFromStream false
          [((["w"] : RPath), FNode.dir),
            (["w", "link"], FNode.symlink false [".git"])]
          [⟨["h"], ["w"], false⟩]
          [((["h"] : RPath), FNode.dir)]).2 =
      some (FNode.symlink false [".git"]) :=
  ⟨rfl,
    untar_symlink_containment.2.2
      [((["w"] : RPath), FNode.dir),
        (["w", "link"], FNode.symlink false [".git"])]
      [⟨["h"], ["w"], false⟩]
      [((["h"] : RPath), FNode.dir)]
      [((["w"] : RPath), FNode.dir),
        (["w", "link"], FNode.symlink false [".git"])]
      ⟨["h"], ["w"], false⟩ ["link"] [".git"] ["w", ".git"]
      rfl rfl (by decide) rfl rfl (by decide) (by decide) rfl (by decide) rfl⟩

/-- Claim C3 (amended): frame effects of the inbound unpack.  Part 1: the
host path of a read-only mount is never modified, for every outcome
(timeout, tar failure or completion) and even when the archive carries data
at its container path.  Part 2: a path directly below a mount host path
whose first component is ignored — the preserved side-channel, canonically a
top-level .git — keeps its exact prior state.  Part 3, where the original
claim fails: a strict descendant of a read-write mount host path whose first
component is NOT ignored is destroyed by a completed unpack even when an
ignored component occurs deeper in its path, so only top-level ignored
entries survive; archive members with an ignored component are never
materialized since extraction excludes them. -/
theorem untar_mounts_frame_spec :
    (∀ (t : Bool) (members : List (RPath × FNode)) (mounts : List VMount)
      (host : FS) (m : VMount) (q : RPath),
      pairwiseHostsDisjoint mounts = true →
      m ∈ mounts → m.readOnly = true → m.hostPath.isPrefixOf q = true →
      List.lookup q (untarMountsFromStream t members mounts host).2 =
        List.lookup q host) ∧
    (∀ (t : Bool) (members : List (RPath × FNode)) (mounts : List VMount)
      (host : FS) (m : VMount) (c : String) (s : RPath),
      pairwiseHostsDisjoint mounts = true →
      mountRelOk m = true → m ∈ mounts → IGNORE_PATHS.contains c = true →
      List.lookup (m.hostPath ++ c :: s)
          (untarMountsFromStream t members mounts host).2 =
        List.lookup (m.hostPath ++ c :: s) host) ∧
    (∀ (members : List (RPath × FNode)) (mounts : List VMount)
      (host : FS) (m : VMount) (d : String) (s : RPath),
      pairwiseHostsDisjoint mounts = true →
      mountRelOk m = true → m ∈ mounts → m.readOnly = false →
      IGNORE_PATHS.contains d = false → noIgnoredComp s = false →
      (untarMountsFromStream false members mounts host).1 = .ok () →
      List.lookup (m.hostPath ++ d :: s)
          (untarMountsFromStream false members mounts host).2 = none) := by
  refine ⟨?_, ?_, ?_⟩
  · intro t members mounts host m q hdisj hmem hro hpre
    cases t with
    | true => rfl
    | false =>
      cases hex : extractTar members with
      | error e =>
        have heq : untarMountsFromStream false members mounts host =
            (.error (.tarFailed e), host) := by
          unfold untarMountsFromStream
          rw [if_neg (fun hc2 => Bool.noConfusion hc2), hex]
        rw [heq]
      | ok scratch =>
        rw [untar_ok_case members mounts host scratch hex, untarWrap_snd]
        clear hex
        revert hdisj hmem
        induction mounts generalizing host with
        | nil =>
          intro _ hmem
          exact absurd hmem (List.not_mem_nil m)
        | cons m0 rest ih =>
          intro hdisj hmem
          have hdj := hdisj
          unfold pairwiseHostsDisjoint at hdj
          have hdj1 := ((Bool.and_eq_true _ _).mp hdj).1
          have hdj2 := ((Bool.and_eq_true _ _).mp hdj).2
          rcases List.mem_cons.mp hmem with he | hr
          · have ham : applyMount (validateSymlinksWithinDir scratch) host m0 =
                (.ok (), host) := by
              unfold applyMount
              rw [← he, hro, if_pos rfl]
            rw [applyMounts_cons_ok _ _ _ _ _ ham]
            rw [← he] at hdj1
            exact applyMounts_lookup_after _ rest host q
              (hosts_disjoint_avoid rest m q hdj1 hpre)
          · cases ham : applyMount (validateSymlinksWithinDir scratch) host m0
              with
            | mk res host1 =>
              have hm0f : m0.hostPath.isPrefixOf q = false := by
                have hov := List.all_eq_true.mp hdj1 m hr
                cases hp0 : m0.hostPath.isPrefixOf q with
                | false => rfl
                | true =>
                  rw [prefix_overlap_of_common_extension _ _ _ hp0 hpre] at hov
                  exact Bool.noConfusion hov
              have hfr := applyMount_frame (validateSymlinksWithinDir scratch)
                host m0 q hm0f
              rw [ham] at hfr
              cases res with
              | error e =>
                rw [applyMounts_cons_err _ _ _ _ _ _ ham]
                exact hfr
              | ok u =>
                cases u
                rw [applyMounts_cons_ok _ _ _ _ _ ham]
                rw [ih host1 hdj2 hr, hfr]
  · intro t members mounts host m c s hdisj hrel hmem hc
    cases t with
    | true => rfl
    | false =>
      cases hex : extractTar members with
      | error e =>
        have heq : untarMountsFromStream false members mounts host =
            (.error (.tarFailed e), host) := by
          unfold untarMountsFromStream
          rw [if_neg (fun hc2 => Bool.noConfusion hc2), hex]
        rw [heq]
      | ok scratch =>
        rw [untar_ok_case members mounts host scratch hex, untarWrap_snd]
        have hkeys : ∀ k ∈ validateSymlinksWithinDir scratch,
            tarExcluded k.1 = false := by
          intro k hkmem
          have hk3 := hkmem
          unfold validateSymlinksWithinDir at hk3
          exact extractTar_not_excluded members scratch hex k
            (List.mem_of_mem_filter hk3)
        clear hex
        revert hdisj hmem
        induction mounts generalizing host with
        | nil =>
          intro _ hmem
          exact absurd hmem (List.not_mem_nil m)
        | cons m0 rest ih =>
          intro hdisj hmem
          have hdj := hdisj
          unfold pairwiseHostsDisjoint at hdj
          have hdj1 := ((Bool.and_eq_true _ _).mp hdj).1
          have hdj2 := ((Bool.and_eq_true _ _).mp hdj).2
          rcases List.mem_cons.mp hmem with he | hr
          · rw [he]
            cases ham : applyMount (validateSymlinksWithinDir scratch) host m0
              with
            | mk res host1 =>
              have hpm := applyMount_preserves_ignored_head
                (validateSymlinksWithinDir scratch) host m0 c s
                (he ▸ hrel) hc hkeys
              rw [ham] at hpm
              cases res with
              | error e =>
                rw [applyMounts_cons_err _ _ _ _ _ _ ham]
                exact hpm
              | ok u =>
                cases u
                rw [applyMounts_cons_ok _ _ _ _ _ ham]
                rw [applyMounts_lookup_after _ rest host1 _
                  (hosts_disjoint_avoid rest m0 _ hdj1
                    (isPrefixOf_self_append _ _))]
                exact hpm
          · cases ham : applyMount (validateSymlinksWithinDir scratch) host m0
              with
            | mk res host1 =>
              have hm0f : m0.hostPath.isPrefixOf (m.hostPath ++ c :: s) =
                  false := by
                have hov := List.all_eq_true.mp hdj1 m hr
                cases hp0 : m0.hostPath.isPrefixOf (m.hostPath ++ c :: s) with
                | false => rfl
                | true =>
                  rw [prefix_overlap_of_common_extension _ _ _ hp0
                    (isPrefixOf_self_append _ _)] at hov
                  exact Bool.noConfusion hov
              have hfr := applyMount_frame (validateSymlinksWithinDir scratch)
                host m0 _ hm0f
              rw [ham] at hfr
              cases res with
              | error e =>
                rw [applyMounts_cons_err _ _ _ _ _ _ ham]
                exact hfr
              | ok u =>
                cases u
                rw [applyMounts_cons_ok _ _ _ _ _ ham]
                rw [ih host1 hdj2 hr, hfr]
  · intro members mounts host m d s hdisj hrel hmem hro hd hs hok
    cases hex : extractTar members with
    | error e =>
      exfalso
      have heq : untarMountsFromStream false members mounts host =
          (.error (.tarFailed e), host) := by
        unfold untarMountsFromStream
        rw [if_neg (fun hc2 => Bool.noConfusion hc2), hex]
      rw [heq] at hok
      exact Except.noConfusion hok
    | ok scratch =>
      rw [untar_ok_case members mounts host scratch hex] at hok ⊢
      rw [untarWrap_snd]
      have hok2 := untarWrap_fst_ok _ hok
      clear hok
      have hkeys : ∀ k ∈ validateSymlinksWithinDir scratch,
          tarExcluded k.1 = false := by
        intro k hkmem
        have hk3 := hkmem
        unfold validateSymlinksWithinDir at hk3
        exact extractTar_not_excluded members scratch hex k
          (List.mem_of_mem_filter hk3)
      clear hex
      revert hdisj hmem hok2
      induction mounts generalizing host with
      | nil =>
        intro _ hmem _
        exact absurd hmem (List.not_mem_nil m)
      | cons m0 rest ih =>
        intro hdisj hmem hok2
        have hdj := hdisj
        unfold pairwiseHostsDisjoint at hdj
        have hdj1 := ((Bool.and_eq_true _ _).mp hdj).1
        have hdj2 := ((Bool.and_eq_true _ _).mp hdj).2
        cases ham : applyMount (validateSymlinksWithinDir scratch) host m0 with
        | mk res host1 =>
          cases res with
          | error e =>
            rw [applyMounts_cons_err _ _ _ _ _ _ ham] at hok2
            exact Except.noConfusion hok2
          | ok u =>
            cases u
            rw [applyMounts_cons_ok _ _ _ _ _ ham] at hok2 ⊢
            rcases List.mem_cons.mp hmem with he | hr
            · rw [he]
              have hcl := applyMount_clears_nested_ignored
                (validateSymlinksWithinDir scratch) host m0 d s
                (he ▸ hro) (he ▸ hrel) hd hs hkeys
              rw [ham] at hcl
              rw [applyMounts_lookup_after _ rest host1 _
                (hosts_disjoint_avoid rest m0 _ hdj1
                  (isPrefixOf_self_append _ _))]
              exact hcl
            · exact ih host1 hdj2 hr hok2

/-- Counterexample to the literal claim C3: a .git directory nested deeper
below a read-write mount host path (here h/a/.git/f) is destroyed by a
completed inbound unpack, although its path contains the ignore-set
component .git; only ignored paths directly below the mount host path are
left intact. -/
theorem untar_nested_ignored_destroyed :
    (untarMountsFromStream false [((["w"] : RPath), FNode.dir)]
        [⟨["h"], ["w"], false⟩]
        [((["h"] : RPath), FNode.dir), (["h", "a"], FNode.dir),
          (["h", "a", ".git"], FNode.dir),
          (["h", "a", ".git", "f"], FNode.file [1] false)]).1 = .ok () ∧
    List.lookup (["h", "a", ".git", "f"] : RPath)
        [((["h"] : RPath), FNode.dir), (["h", "a"], FNode.dir),
          (["h", "a", ".git"], FNode.dir),
          (["h", "a", ".git", "f"], FNode.file [1] false)] =
      some (FNode.file [1] false) ∧
    List.lookup (["h", "a", ".git", "f"] : RPath)
        (untarMountsFromStream false [((["w"] : RPath), FNode.dir)]
          [⟨["h"], ["w"], false⟩]
          [((["h"] : RPath), FNode.dir), (["h", "a"], FNode.dir),
            (["h", "a", ".git"], FNode.dir),
            (["h", "a", ".git", "f"], FNode.file [1] false)]).2 = none :=
  ⟨rfl, rfl, rfl⟩

/-- Witness for the amended C3 at a concrete mount set: a file below the
read-only mount host path and a file below the top-level .git of the
read-write mount host path both survive a completed unpack unchanged. -/
theorem untar_mounts_frame_spec_witness :
    List.lookup (["r", "x"] : RPath)
        (untarMountsFromStream false [((["w"] : RPath), FNode.dir)]
          [⟨["r"], ["ro"], true⟩, ⟨["h"], ["w"], false⟩]
          [((["r"] : RPath), FNode.dir), (["r", "x"], FNode.file [2] false),
            (["h"], FNode.dir), (["h", ".git"], FNode.dir),
            (["h", ".git", "f"], FNode.file [1] false)]).2 =
      some (FNode.file [2] false) ∧
    List.lookup (["h", ".git", "f"] : RPath)
        (untarMountsFromStream false [((["w"] : RPath), FNode.dir)]
          [⟨["r"], ["ro"], true⟩, ⟨["h"], ["w"], false⟩]
          [((["r"] : RPath), FNode.dir), (["r", "x"], FNode.file [2] false),
            (["h"], FNode.dir), (["h", ".git"], FNode.dir),
            (["h", ".git", "f"], FNode.file [1] false)]).2 =
      some (FNode.file [1] false) :=
  ⟨Eq.trans
    (untar_mounts_frame_spec.1 false [((["w"] : RPath), FNode.dir)]
      [⟨["r"], ["ro"], true⟩, ⟨["h"], ["w"], false⟩]
      [((["r"] : RPath), FNode.dir), (["r", "x"], FNode.file [2] false),
        (["h"], FNode.dir), (["h", ".git"], FNode.dir),
        (["h", ".git", "f"], FNode.file [1] false)]
      ⟨["r"], ["ro"], true⟩ ["r", "x"]
      (by decide) (by decide) rfl (by decide)) rfl,
  Eq.trans
    (untar_mounts_frame_spec.2.1 false [((["w"] : RPath), FNode.dir)]
      [⟨["r"], ["ro"], true⟩, ⟨["h"], ["w"], false⟩]
      [((["r"] : RPath), FNode.dir), (["r", "x"], FNode.file [2] false),
        (["h"], FNode.dir), (["h", ".git"], FNode.dir),
        (["h", ".git", "f"], FNode.file [1] false)]
      ⟨["h"], ["w"], false⟩ ".git" ["f"]
      (by decide) (by decide) (by decide) (by decide)) rfl⟩

/-! Infrastructure for the pack/unpack round trip. -/

theorem treeOk_parts (tree : FS) (h : treeOk tree = true) :
    (∀ m2 ∈ tree, m2.1 ≠ [] ∧ pathClean m2.1 = true) ∧
    (tree.map Prod.fst).Nodup ∧
    (∀ m2 ∈ tree, ∀ q ∈ properAncestors m2.1,
      List.lookup q tree = some FNode.dir) := by
  unfold treeOk at h
  obtain ⟨hAB, hC⟩ := (Bool.and_eq_true _ _).mp h
  obtain ⟨hA, hB⟩ := (Bool.and_eq_true _ _).mp hAB
  refine ⟨?_, of_decide_eq_true hB, ?_⟩
  · intro m2 hm2
    have h2 := List.all_eq_true.mp hA m2 hm2
    obtain ⟨h3, h4⟩ := (Bool.and_eq_true _ _).mp h2
    refine ⟨?_, h4⟩
    intro he
    rw [he] at h3
    exact Bool.noConfusion h3
  · intro m2 hm2 q hq
    have h2 := List.all_eq_true.mp hC m2 hm2
    have h3 := List.all_eq_true.mp h2 q hq
    exact eq_of_beq h3

theorem freshDest_parts (host : FS) (hp : RPath) (h : freshDest host hp = true) :
    List.lookup hp host = some FNode.dir ∧
    ∀ q, hp.isPrefixOf q = true → q ≠ hp → List.lookup q host = none := by
  obtain ⟨h1, h2⟩ := (Bool.and_eq_true _ _).mp h
  refine ⟨eq_of_beq h1, ?_⟩
  intro q hpre hne
  apply lookup_eq_none_of_not_mem_keys
  intro hmem
  obtain ⟨mm, hmm, hq⟩ := List.mem_map.mp hmem
  have h3 := List.all_eq_true.mp h2 mm hmm
  rw [hq, hpre, decide_eq_true hne] at h3
  exact Bool.noConfusion h3

theorem pathClean_no_dotdot (p : RPath) (h : pathClean p = true) :
    p.contains ".." = false := by
  cases hc : p.contains ".." with
  | false => rfl
  | true =>
    have hm := List.elem_iff.mp hc
    have h2 := List.all_eq_true.mp h _ hm
    exact absurd h2 (by decide)

theorem cleanMemberPath_id (p : RPath) (h : pathClean p = true) :
    cleanMemberPath p = p := by
  unfold cleanMemberPath
  rw [List.filter_eq_self]
  intro c hc
  have hcp := List.all_eq_true.mp h c hc
  obtain ⟨h12, h3⟩ := (Bool.and_eq_true _ _).mp hcp
  obtain ⟨h1, h2⟩ := (Bool.and_eq_true _ _).mp h12
  rw [h1, h3]
  rfl

theorem noIgnoredComp_take (t : RPath) (j : Nat) (h : noIgnoredComp t = true) :
    noIgnoredComp (t.take j) = true := by
  unfold noIgnoredComp at h ⊢
  rw [List.all_eq_true] at h ⊢
  intro x hx
  exact h x (List.Sublist.mem hx (List.take_sublist _ _))

theorem tarExcluded_append (rel p : RPath) (hne : rel ≠ [])
    (hrel : noIgnoredComp rel = true) :
    tarExcluded (rel ++ p) = !noIgnoredComp p := by
  cases rel with
  | nil => exact absurd rfl hne
  | cons a as =>
    unfold tarExcluded
    have hd : ((a :: as) ++ p).drop 1 = as ++ p := rfl
    rw [hd, List.any_append]
    have has : as.any (fun c => IGNORE_PATHS.contains c) = false := by
      rw [List.any_eq_false]
      intro c hc hcon
      have hni := List.all_eq_true.mp hrel c (List.mem_cons_of_mem _ hc)
      rw [hcon] at hni
      exact Bool.noConfusion hni
    rw [has, Bool.false_or, List.any_eq_not_all_not]
    rfl

theorem lookup_map_rel (rel : List String) (p : RPath) (l : FS) :
    List.lookup (rel ++ p) (l.map (fun m2 => (rel ++ m2.1, m2.2))) =
      List.lookup p l := by
  induction l with
  | nil => rfl
  | cons hd tl ih =>
    obtain ⟨k, v⟩ := hd
    have hkey : ((rel ++ p) == (rel ++ k)) = (p == k) := by
      by_cases hpq : p = k
      · rw [hpq, beq_self_eq_true, beq_self_eq_true]
      · rw [beq_eq_false_iff_ne.mpr hpq, beq_eq_false_iff_ne.mpr
          (fun hcon => hpq (List.append_cancel_left hcon))]
    rw [List.map_cons]
    simp only [List.lookup]
    rw [hkey]
    cases hpq : (p == k) with
    | true => rfl
    | false => exact ih

theorem packTree_clean_id (rel : List String) (tree : FS)
    (hrel : pathClean rel = true) (htree : treeOk tree = true) :
    (packTree rel tree).map (fun m2 => (cleanMemberPath m2.1, m2.2)) =
      packTree rel tree := by
  unfold packTree
  rw [List.map_cons, List.map_map, cleanMemberPath_id rel hrel]
  congr 1
  apply List.map_congr_left
  intro m2 hm2
  show (cleanMemberPath (rel ++ m2.1), m2.2) = (rel ++ m2.1, m2.2)
  have hm2cl : pathClean m2.1 = true := ((treeOk_parts tree htree).1 m2 hm2).2
  have hcl : pathClean (rel ++ m2.1) = true := by
    unfold pathClean at hrel hm2cl ⊢
    rw [List.all_append, hrel, hm2cl]
    rfl
  rw [cleanMemberPath_id _ hcl]

theorem packTree_no_bad (rel : List String) (tree : FS)
    (hne : rel ≠ []) (hnodd : rel.contains ".." = false)
    (htree : treeOk tree = true) :
    (packTree rel tree).any (fun m2 => m2.1.isEmpty || m2.1.contains "..") =
      false := by
  rw [List.any_eq_false]
  intro x hx hcon
  have hxfacts : x.1 ≠ [] ∧ x.1.contains ".." = false := by
    unfold packTree at hx
    rcases List.mem_cons.mp hx with he | hm
    · rw [he]
      exact ⟨hne, hnodd⟩
    · obtain ⟨m2, hm2, hfx⟩ := List.mem_map.mp hm
      rw [← hfx]
      have hparts := (treeOk_parts tree htree).1 m2 hm2
      constructor
      · show rel ++ m2.1 ≠ []
        intro hz
        exact hne (List.append_eq_nil.mp hz).1
      · show (rel ++ m2.1).contains ".." = false
        apply contains_false_of_not_mem
        intro hmm
        rcases List.mem_append.mp hmm with h1 | h2
        · have hc1 := contains_of_mem h1
          rw [hnodd] at hc1
          exact Bool.noConfusion hc1
        · have hc2 := List.all_eq_true.mp hparts.2 _ h2
          exact absurd hc2 (by decide)
  obtain ⟨hxe, hxc⟩ := hxfacts
  rw [hxc, Bool.or_false] at hcon
  exact hxe (List.isEmpty_iff.mp hcon)

theorem packTree_filter (rel : List String) (tree : FS) (hne : rel ≠ [])
    (hrelni : noIgnoredComp rel = true) :
    (packTree rel tree).filter (fun m2 => !tarExcluded m2.1) =
      (rel, FNode.dir) ::
        (tree.filter (fun m2 => noIgnoredComp m2.1)).map
          (fun m2 => (rel ++ m2.1, m2.2)) := by
  have hrelx : tarExcluded rel = false := by
    have h2 := tarExcluded_append rel [] hne hrelni
    rw [List.append_nil] at h2
    rw [h2]
    rfl
  unfold packTree
  rw [List.filter_cons]
  have hcond : (!tarExcluded ((rel, FNode.dir) : RPath × FNode).1) = true := by
    show (!tarExcluded rel) = true
    rw [hrelx]
    rfl
  rw [if_pos hcond]
  congr 1
  induction tree with
  | nil => rfl
  | cons hd tl ih =>
    rw [List.map_cons, List.filter_cons, List.filter_cons]
    have hpr : (!tarExcluded ((rel ++ hd.1, hd.2) : RPath × FNode).1) =
        noIgnoredComp hd.1 := by
      show (!tarExcluded (rel ++ hd.1)) = noIgnoredComp hd.1
      rw [tarExcluded_append rel hd.1 hne hrelni, Bool.not_not]
    rw [hpr]
    cases hni : noIgnoredComp hd.1 with
    | true =>
      rw [if_pos rfl, if_pos rfl, List.map_cons, ih]
    | false =>
      rw [if_neg (fun hc => Bool.noConfusion hc),
        if_neg (fun hc => Bool.noConfusion hc), ih]

theorem packTree_filter_keys_nodup (rel : List String) (tree : FS)
    (htree : treeOk tree = true) :
    ((((rel, FNode.dir) ::
        (tree.filter (fun m2 => noIgnoredComp m2.1)).map
          (fun m2 => (rel ++ m2.1, m2.2))).map Prod.fst)).Nodup := by
  rw [List.map_cons, List.nodup_cons]
  constructor
  · intro hmem
    rw [List.map_map] at hmem
    obtain ⟨m2, hm2, hfx⟩ := List.mem_map.mp hmem
    have hm2t := List.mem_of_mem_filter hm2
    have hm2ne := ((treeOk_parts tree htree).1 m2 hm2t).1
    have hz : rel ++ m2.1 = rel ++ [] := by
      rw [List.append_nil]
      exact hfx
    exact hm2ne (List.append_cancel_left hz)
  · rw [List.map_map]
    have hshape : (tree.filter (fun m2 => noIgnoredComp m2.1)).map
        (Prod.fst ∘ fun m2 => (rel ++ m2.1, m2.2)) =
        ((tree.filter (fun m2 => noIgnoredComp m2.1)).map Prod.fst).map
          (fun k => rel ++ k) := by
      rw [List.map_map]
      rfl
    rw [hshape]
    apply List.Nodup.map
    · intro x y hxy
      exact List.append_cancel_left hxy
    · exact List.Nodup.sublist
        (List.Sublist.map Prod.fst (List.filter_sublist tree))
        (treeOk_parts tree htree).2.1

theorem packTree_extract (rel : List String) (tree : FS) (hne : rel ≠ [])
    (hrelcl : pathClean rel = true) (hrelni : noIgnoredComp rel = true)
    (htree : treeOk tree = true) :
    extractTar (packTree rel tree) =
      .ok (addImplicitDirs ((rel, FNode.dir) ::
        (tree.filter (fun m2 => noIgnoredComp m2.1)).map
          (fun m2 => (rel ++ m2.1, m2.2)))) := by
  unfold extractTar
  rw [packTree_clean_id rel tree hrelcl htree]
  show (if ((packTree rel tree).any
      (fun m => m.1.isEmpty || m.1.contains "..")) = true then
      (Except.error "tar: member name is empty or contains a dot-dot component" :
        Except String FS)
    else Except.ok (addImplicitDirs (dedupKeepLast
      ((packTree rel tree).filter (fun m => !tarExcluded m.1))))) = _
  rw [packTree_no_bad rel tree hne (pathClean_no_dotdot rel hrelcl) htree]
  rw [if_neg (fun hc => Bool.noConfusion hc)]
  rw [packTree_filter rel tree hne hrelni]
  rw [dedupKeepLast_eq_self _ (packTree_filter_keys_nodup rel tree htree)]

theorem mem_properAncestors (t : RPath) (j : Nat) (h1 : 1 ≤ j)
    (h2 : j < t.length) : t.take j ∈ properAncestors t := by
  unfold properAncestors
  apply List.mem_map.mpr
  refine ⟨j, ?_, rfl⟩
  cases ht : t.length with
  | zero => omega
  | succ n =>
    rw [List.range_succ_eq_map, List.drop_one, List.tail_cons]
    apply List.mem_map.mpr
    rw [ht] at h2
    exact ⟨j - 1, List.mem_range.mpr (by omega), by omega⟩

theorem lookup_addImplicitDirs (fsS : FS) (q : RPath)
    (h : (List.lookup q fsS).isSome = true ∨
      ∀ k ∈ fsS, q ∉ properAncestors k.1) :
    List.lookup q (addImplicitDirs fsS) = List.lookup q fsS := by
  have he : addImplicitDirs fsS = fsS ++ dedupByKey
      (((fsS.foldr (fun m acc => properAncestors m.1 ++ acc) []).filter
        (fun q2 => (List.lookup q2 fsS).isNone)).map
          (fun q2 => (q2, FNode.dir))) := rfl
  rw [he, List.lookup_append]
  cases hl : List.lookup q fsS with
  | some v => rfl
  | none =>
    cases h with
    | inl hs =>
      rw [hl] at hs
      exact Bool.noConfusion hs
    | inr hno =>
      cases hd : List.lookup q (dedupByKey
          (((fsS.foldr (fun m acc => properAncestors m.1 ++ acc) []).filter
            (fun q2 => (List.lookup q2 fsS).isNone)).map
              (fun q2 => (q2, FNode.dir)))) with
      | none => rfl
      | some w =>
        exfalso
        have hmem := mem_of_lookup_eq_some hd
        have hmem2 := dedupSeen_sublist [] _ _ hmem
        obtain ⟨qq, hqq, hfx⟩ := List.mem_map.mp hmem2
        have hq : qq = q := congrArg Prod.fst hfx
        subst hq
        have hqf := List.mem_of_mem_filter hqq
        rw [mem_foldr_ancestors] at hqf
        obtain ⟨mm, hmm, hanc⟩ := hqf
        exact hno mm hmm hanc

theorem lookup_pack_filtered (rel : List String) (tree : FS) (p : RPath)
    (hpne : p ≠ []) (hnd : (tree.map Prod.fst).Nodup) :
    List.lookup (rel ++ p) ((rel, FNode.dir) ::
        (tree.filter (fun m2 => noIgnoredComp m2.1)).map
          (fun m2 => (rel ++ m2.1, m2.2))) =
      (if noIgnoredComp p = true then List.lookup p tree else none) := by
  have hne : ((rel ++ p) == rel) = false := by
    apply beq_eq_false_iff_ne.mpr
    cases p with
    | nil => exact absurd rfl hpne
    | cons c tail => exact append_cons_ne_self rel c tail
  simp only [List.lookup, hne]
  rw [lookup_map_rel]
  rw [lookup_filter_of_nodup _ _ _ hnd]
  cases hl : List.lookup p tree with
  | none =>
    cases hni : noIgnoredComp p with
    | true => rfl
    | false => rfl
  | some v => rfl

theorem validate_lookup_file (S : FS) (q : RPath) (c : List Nat) (e : Bool)
    (hnd : (S.map Prod.fst).Nodup) :
    List.lookup q (validateSymlinksWithinDir S) = some (FNode.file c e) ↔
      List.lookup q S = some (FNode.file c e) := by
  unfold validateSymlinksWithinDir
  rw [lookup_filter_of_nodup _ _ _ hnd]
  constructor
  · intro h
    cases hl : List.lookup q S with
    | none =>
      rw [hl] at h
      exact Option.noConfusion h
    | some v =>
      rw [hl] at h
      cases v with
      | file c2 e2 =>
        have h2 : (some (FNode.file c2 e2) : Option FNode) =
            some (FNode.file c e) := h
        exact h2
      | dir =>
        have h2 : (some FNode.dir : Option FNode) =
            some (FNode.file c e) := h
        exact absurd (Option.some.inj h2) (fun hc => FNode.noConfusion hc)
      | symlink ab tgt =>
        have h3 : (if keepSymlink S q ab tgt = true
            then some (FNode.symlink ab tgt) else none) =
            some (FNode.file c e) := h
        cases hk : keepSymlink S q ab tgt with
        | true =>
          rw [hk, if_pos rfl] at h3
          exact absurd (Option.some.inj h3) (fun hc => FNode.noConfusion hc)
        | false =>
          rw [hk, if_neg (fun hc => Bool.noConfusion hc)] at h3
          exact Option.noConfusion h3
  · intro h
    rw [h]
    rfl

theorem pack_scratch_lookup (rel : List String) (tree : FS) (p : RPath)
    (hne : rel ≠ []) (htree : treeOk tree = true) (hpne : p ≠ []) :
    List.lookup (rel ++ p)
        (addImplicitDirs ((rel, FNode.dir) ::
          (tree.filter (fun m2 => noIgnoredComp m2.1)).map
            (fun m2 => (rel ++ m2.1, m2.2)))) =
      (if noIgnoredComp p = true then List.lookup p tree else none) := by
  have hnd := (treeOk_parts tree htree).2.1
  by_cases hsome : (List.lookup (rel ++ p) ((rel, FNode.dir) ::
      (tree.filter (fun m2 => noIgnoredComp m2.1)).map
        (fun m2 => (rel ++ m2.1, m2.2)))).isSome = true
  · rw [lookup_addImplicitDirs _ _ (Or.inl hsome)]
    exact lookup_pack_filtered rel tree p hpne hnd
  · have hnone : List.lookup (rel ++ p) ((rel, FNode.dir) ::
        (tree.filter (fun m2 => noIgnoredComp m2.1)).map
          (fun m2 => (rel ++ m2.1, m2.2))) = none := by
      cases hx : List.lookup (rel ++ p) ((rel, FNode.dir) ::
          (tree.filter (fun m2 => noIgnoredComp m2.1)).map
            (fun m2 => (rel ++ m2.1, m2.2))) with
      | none => rfl
      | some v =>
        exfalso
        apply hsome
        rw [hx]
        rfl
    have hno : ∀ k ∈ ((rel, FNode.dir) ::
        (tree.filter (fun m2 => noIgnoredComp m2.1)).map
          (fun m2 => (rel ++ m2.1, m2.2))),
        (rel ++ p) ∉ properAncestors k.1 := by
      intro k hk hanc
      have hp0 : 0 < p.length := List.length_pos.mpr hpne
      rcases List.mem_cons.mp hk with hke | hkm
      · have hanc2 : rel ++ p ∈ properAncestors rel := by
          rw [hke] at hanc
          exact hanc
        obtain ⟨i, hi1, hi2, hi3⟩ := properAncestors_spec _ _ hanc2
        have hlen := congrArg List.length hi3
        rw [List.length_append, List.length_take] at hlen
        have hmin : i ⊓ rel.length = i := Nat.min_eq_left (Nat.le_of_lt hi2)
        rw [hmin] at hlen
        omega
      · obtain ⟨mm, hmm, hfx⟩ := List.mem_map.mp hkm
        have hanc2 : rel ++ p ∈ properAncestors (rel ++ mm.1) := by
          rw [← hfx] at hanc
          exact hanc
        obtain ⟨i, hi1, hi2, hi3⟩ := properAncestors_spec _ _ hanc2
        rw [List.length_append] at hi2
        have hlen := congrArg List.length hi3
        rw [List.length_append, List.length_take, List.length_append] at hlen
        have hmin : i ⊓ (rel.length + mm.1.length) = i :=
          Nat.min_eq_left (Nat.le_of_lt hi2)
        rw [hmin] at hlen
        have htake : rel ++ p = rel ++ mm.1.take (i - rel.length) := by
          rw [hi3, List.take_append_eq_append_take,
            List.take_of_length_le (by omega)]
        have hpt : p = mm.1.take (i - rel.length) :=
          List.append_cancel_left htake
        have hmm_tree := List.mem_of_mem_filter hmm
        have hmm_ni0 := List.of_mem_filter hmm
        have hmm_ni : noIgnoredComp mm.1 = true := hmm_ni0
        have hpanc := mem_properAncestors mm.1 (i - rel.length)
          (by omega) (by omega)
        rw [← hpt] at hpanc
        have hdir := (treeOk_parts tree htree).2.2 mm hmm_tree p hpanc
        have hpni : noIgnoredComp p = true := by
          rw [hpt]
          exact noIgnoredComp_take _ _ hmm_ni
        rw [lookup_pack_filtered rel tree p hpne hnd, if_pos hpni, hdir]
          at hnone
        exact Option.noConfusion hnone
    rw [lookup_addImplicitDirs _ _ (Or.inr hno)]
    exact lookup_pack_filtered rel tree p hpne hnd

theorem pack_unpack_state (tree host : FS) (m : VMount)
    (htree : treeOk tree = true)
    (hrel : mountRelOk m = true)
    (hrelcl : pathClean m.relContainerPath = true)
    (hro : m.readOnly = false)
    (hfresh : freshDest host m.hostPath = true) :
    untarMountsFromStream false (packTree m.relContainerPath tree) [m] host =
      (.ok (), copyTreeModel
        (validateSymlinksWithinDir (addImplicitDirs ((m.relContainerPath,
          FNode.dir) :: (tree.filter (fun m2 => noIgnoredComp m2.1)).map
            (fun m2 => (m.relContainerPath ++ m2.1, m2.2)))))
        m.relContainerPath
        (deleteNonIgnorePaths host m.hostPath) m.hostPath) := by
  obtain ⟨hrelne0, hrelni⟩ := (Bool.and_eq_true _ _).mp hrel
  have hrelne : m.relContainerPath ≠ [] := by
    intro he
    rw [he] at hrelne0
    exact Bool.noConfusion hrelne0
  have hex := packTree_extract m.relContainerPath tree hrelne hrelcl hrelni
    htree
  rw [untar_ok_case _ _ _ _ hex]
  have h1 : List.lookup m.relContainerPath ((m.relContainerPath,
      FNode.dir) :: (tree.filter (fun m2 => noIgnoredComp m2.1)).map
        (fun m2 => (m.relContainerPath ++ m2.1, m2.2))) = some FNode.dir := by
    simp only [List.lookup]
    rw [beq_self_eq_true]
  have h2 : List.lookup m.relContainerPath (addImplicitDirs
      ((m.relContainerPath, FNode.dir) ::
        (tree.filter (fun m2 => noIgnoredComp m2.1)).map
          (fun m2 => (m.relContainerPath ++ m2.1, m2.2)))) = some FNode.dir := by
    rw [lookup_addImplicitDirs _ _ (Or.inl (by rw [h1]; rfl))]
    exact h1
  have hndS := extractTar_keys_nodup _ _ hex
  have hV := validate_keeps_lookup_dir _ _ hndS h2
  have hdel : deletedBelow m.hostPath m.hostPath = false := by
    unfold deletedBelow
    rw [decide_eq_false (fun hc => hc rfl), Bool.and_false, Bool.false_and]
  have h3 : List.lookup m.hostPath
      (deleteNonIgnorePaths host m.hostPath) = some FNode.dir := by
    rw [lookup_deleteNonIgnorePaths, hdel,
      if_neg (fun hc => Bool.noConfusion hc)]
    exact (freshDest_parts host _ hfresh).1
  have hstep : applyMount (validateSymlinksWithinDir (addImplicitDirs
      ((m.relContainerPath, FNode.dir) ::
        (tree.filter (fun m2 => noIgnoredComp m2.1)).map
          (fun m2 => (m.relContainerPath ++ m2.1, m2.2))))) host m =
      (.ok (), copyTreeModel
        (validateSymlinksWithinDir (addImplicitDirs ((m.relContainerPath,
          FNode.dir) :: (tree.filter (fun m2 => noIgnoredComp m2.1)).map
            (fun m2 => (m.relContainerPath ++ m2.1, m2.2)))))
        m.relContainerPath
        (deleteNonIgnorePaths host m.hostPath) m.hostPath) := by
    unfold applyMount
    rw [hro, if_neg (fun hc => Bool.noConfusion hc)]
    unfold applyMountCopy
    rw [hV]
    show copyTreeStep _ (deleteNonIgnorePaths host m.hostPath) m = _
    unfold copyTreeStep
    have hcond : ((List.lookup m.relContainerPath
        (validateSymlinksWithinDir (addImplicitDirs ((m.relContainerPath,
          FNode.dir) :: (tree.filter (fun m2 => noIgnoredComp m2.1)).map
            (fun m2 => (m.relContainerPath ++ m2.1, m2.2)))))).isNone &&
        ((validateSymlinksWithinDir (addImplicitDirs ((m.relContainerPath,
          FNode.dir) :: (tree.filter (fun m2 => noIgnoredComp m2.1)).map
            (fun m2 => (m.relContainerPath ++ m2.1, m2.2))))).filter
          (fun x => m.relContainerPath.isPrefixOf x.1 &&
            decide (x.1 ≠ m.relContainerPath))).isEmpty) = false := by
      rw [hV]
      rfl
    rw [hcond, if_neg (fun hc => Bool.noConfusion hc)]
    rw [h3]
  rw [applyMounts_cons_ok _ _ _ _ _ hstep]
  rfl

/-- Claim C6: pack/unpack round trip.  Packing a well-formed directory tree
as a read-write mount (mounts_to_tar) and unpacking the resulting archive
stream through untar_mounts_from_stream onto a fresh destination completes
without error and reproduces exactly the relative file set of the tree with
identical byte contents and executable bits, except that entries with an
ignore-set component anywhere in their relative path never appear at the
destination. -/
theorem pack_unpack_round_trip :
    ∀ (tree host : FS) (m : VMount),
      treeOk tree = true →
      mountRelOk m = true →
      pathClean m.relContainerPath = true →
      m.readOnly = false →
      freshDest host m.hostPath = true →
      (untarMountsFromStream false (packTree m.relContainerPath tree)
          [m] host).1 = .ok () ∧
      ∀ (p : RPath) (c : List Nat) (e : Bool), p ≠ [] →
        (List.lookup (m.hostPath ++ p)
            (untarMountsFromStream false (packTree m.relContainerPath tree)
              [m] host).2 = some (FNode.file c e) ↔
          noIgnoredComp p = true ∧
            List.lookup p tree = some (FNode.file c e)) := by
  intro tree host m htree hrel hrelcl hro hfresh
  have hstate := pack_unpack_state tree host m htree hrel hrelcl hro hfresh
  obtain ⟨hrelne0, hrelni⟩ := (Bool.and_eq_true _ _).mp hrel
  have hrelne : m.relContainerPath ≠ [] := by
    intro he
    rw [he] at hrelne0
    exact Bool.noConfusion hrelne0
  have hex := packTree_extract m.relContainerPath tree hrelne hrelcl hrelni
    htree
  have hndS := extractTar_keys_nodup _ _ hex
  have hndV : ((validateSymlinksWithinDir (addImplicitDirs
      ((m.relContainerPath, FNode.dir) ::
        (tree.filter (fun m2 => noIgnoredComp m2.1)).map
          (fun m2 => (m.relContainerPath ++ m2.1, m2.2))))).map
            Prod.fst).Nodup := by
    unfold validateSymlinksWithinDir
    exact nodup_keys_filter _ _ hndS
  constructor
  · rw [hstate]
  · intro p c e hpne
    have hq : m.hostPath ++ p ≠ m.hostPath := by
      cases p with
      | nil => exact absurd rfl hpne
      | cons c2 tail => exact append_cons_ne_self m.hostPath c2 tail
    have hgoal : List.lookup (m.hostPath ++ p)
        (untarMountsFromStream false (packTree m.relContainerPath tree)
          [m] host).2 =
        List.lookup (m.hostPath ++ p) (copyTreeModel
          (validateSymlinksWithinDir (addImplicitDirs ((m.relContainerPath,
            FNode.dir) :: (tree.filter (fun m2 => noIgnoredComp m2.1)).map
              (fun m2 => (m.relContainerPath ++ m2.1, m2.2)))))
          m.relContainerPath
          (deleteNonIgnorePaths host m.hostPath) m.hostPath) := by
      rw [hstate]
    have hdest : List.lookup (m.hostPath ++ p) (copyTreeModel
        (validateSymlinksWithinDir (addImplicitDirs ((m.relContainerPath,
          FNode.dir) :: (tree.filter (fun m2 => noIgnoredComp m2.1)).map
            (fun m2 => (m.relContainerPath ++ m2.1, m2.2)))))
        m.relContainerPath
        (deleteNonIgnorePaths host m.hostPath) m.hostPath) =
        List.lookup (m.relContainerPath ++ p)
          (validateSymlinksWithinDir (addImplicitDirs ((m.relContainerPath,
            FNode.dir) :: (tree.filter (fun m2 => noIgnoredComp m2.1)).map
              (fun m2 => (m.relContainerPath ++ m2.1, m2.2))))) := by
      cases hsv : List.lookup (m.relContainerPath ++ p)
          (validateSymlinksWithinDir (addImplicitDirs ((m.relContainerPath,
            FNode.dir) :: (tree.filter (fun m2 => noIgnoredComp m2.1)).map
              (fun m2 => (m.relContainerPath ++ m2.1, m2.2))))) with
      | some n =>
        exact copyTreeModel_copies _ m.relContainerPath _ m.hostPath p n
          hpne hndV (mem_of_lookup_eq_some hsv)
      | none =>
        have hk : ∀ k, (∃ n, (k, n) ∈ validateSymlinksWithinDir
            (addImplicitDirs ((m.relContainerPath, FNode.dir) ::
              (tree.filter (fun m2 => noIgnoredComp m2.1)).map
                (fun m2 => (m.relContainerPath ++ m2.1, m2.2))))) →
            m.relContainerPath.isPrefixOf k = true →
            k ≠ m.relContainerPath →
            m.hostPath ++ p ≠
              m.hostPath ++ k.drop m.relContainerPath.length := by
          intro k hkm hkp hkne he
          have hdropk : k.drop m.relContainerPath.length = p :=
            (List.append_cancel_left he).symm
          obtain ⟨t, hkt⟩ := (isPrefixOf_iff_exists _ _).mp hkp
          subst hkt
          rw [List.drop_left] at hdropk
          subst hdropk
          obtain ⟨n, hn⟩ := hkm
          have hsome := lookup_isSome_of_mem hn
          rw [hsv] at hsome
          exact Bool.noConfusion hsome
        rw [lookup_copyTreeModel_not_written _ m.relContainerPath _
          m.hostPath _ hq hk]
        rw [lookup_deleteNonIgnorePaths]
        cases hdb : deletedBelow m.hostPath (m.hostPath ++ p) with
        | true => rfl
        | false =>
          rw [if_neg (fun hc => Bool.noConfusion hc)]
          exact (freshDest_parts host _ hfresh).2 _
            (isPrefixOf_self_append _ _) hq
    rw [hgoal, hdest,
      validate_lookup_file _ (m.relContainerPath ++ p) c e hndS,
      pack_scratch_lookup m.relContainerPath tree p hrelne htree hpne]
    cases hni : noIgnoredComp p with
    | true =>
      rw [if_pos rfl]
      constructor
      · intro h
        exact ⟨rfl, h⟩
      · intro h
        exact h.2
    | false =>
      rw [if_neg (fun hc => Bool.noConfusion hc)]
      constructor
      · intro h
        exact Option.noConfusion h
      · intro h
        exact Bool.noConfusion h.1

/-- Witness for C6 at a concrete tree: packing a tree with sub/x (an
executable file) and a top-level .git directory and unpacking it onto a
fresh host directory succeeds, and the file reappears at the mount host
path with identical content and executable bit. -/
theorem pack_unpack_round_trip_witness :
    (untarMountsFromStream false
        (packTree ["w"] [((["sub"] : RPath), FNode.dir),
          (["sub", "x"], FNode.file [7] true), ([".git"], FNode.dir)])
        [⟨["h"], ["w"], false⟩] [((["h"] : RPath), FNode.dir)]).1 = .ok () ∧
    List.lookup (["h", "sub", "x"] : RPath)
        (untarMountsFromStream false
          (packTree ["w"] [((["sub"] : RPath), FNode.dir),
            (["sub", "x"], FNode.file [7] true), ([".git"], FNode.dir)])
          [⟨["h"], ["w"], false⟩] [((["h"] : RPath), FNode.dir)]).2 =
      some (FNode.file [7] true) :=
  ⟨(pack_unpack_round_trip
      [((["sub"] : RPath), FNode.dir), (["sub", "x"], FNode.file [7] true),
        ([".git"], FNode.dir)]
      [((["h"] : RPath), FNode.dir)] ⟨["h"], ["w"], false⟩
      (by decide) (by decide) (by decide) rfl (by decide)).1,
    ((pack_unpack_round_trip
      [((["sub"] : RPath), FNode.dir), (["sub", "x"], FNode.file [7] true),
        ([".git"], FNode.dir)]
      [((["h"] : RPath), FNode.dir)] ⟨["h"], ["w"], false⟩
      (by decide) (by decide) (by decide) rfl (by decide)).2
        ["sub", "x"] [7] true (by decide)).mpr ⟨by decide, by decide⟩⟩

end CFOps
